import Mathlib

/-!
# Verification of the cross-cluster backup / snapshot engine of `afridho/mongodb`

This file gives a shallow embedding, in Lean 4, of the backup subsystem of
`src/connectdb.ts` (the static methods `incrementalBackupOneDatabase`,
`deltaBackupOneDatabase`, `fullSyncOneDatabase`, `cleanupSnapshots` of class
`ClientDB`), together with theorems settling the specification claims about it.

Modelling conventions:
* A BSON document identity (`_id`) is either an `ObjectId` (kept as its
  24-character lowercase hex string) or a plain string — the two BSON types
  that matter for the engine's behaviour; BSON equality distinguishes them.
* Field values are dates (millisecond timestamps, as `Int`) or opaque
  integers; documents are association lists from field names to values.
* A collection is the list of its documents, a database an association list
  from collection names to collections, a cluster an association list from
  database names to databases.  Enumeration order is list order.
* Fallible store writes are modelled with `Except`, the error payload
  carrying the partial state left behind by the aborted run (MongoDB has no
  cross-document transactions, so a thrown error leaves prior writes in
  place).
* `Date.now()` values and the date arithmetic of `date-fns`
  (`getISOWeek`, `getISOWeekYear`, `subWeeks`) are modelled on civil day
  numbers (days since 1970-01-01).
* JavaScript's `Number(string)` coercion used by `cleanupSnapshots` is
  modelled on the strings the engine actually meets: decimal digit strings
  parse to their value, the empty string to `0`, anything else to `NaN`
  (represented by `none`); comparisons against `NaN` are `false`.
-/

/-! ## Characters, digit strings and JavaScript `Number` coercion -/

/-- Character strings, modelled structurally as lists of characters. -/
abbrev Str := List Char

/-- Decimal digit test for a character. -/
def isDigitC (c : Char) : Bool := '0' ≤ c ∧ c ≤ '9'

/-- Numeric value of a decimal digit string (most significant digit first). -/
def digitsVal (l : Str) : Nat := l.foldl (fun a c => a * 10 + (c.toNat - 48)) 0

/-- A JavaScript number produced by `Number(string)` on the strings the
cleanup code can meet: a finite value (kept as an exact rational — IEEE
double rounding of astronomically large literals is not modelled, since
it cannot change a comparison against a calendar-sized cutoff) or
`Infinity`.  `-Infinity` and negative literals cannot arise at the call
site: the coerced strings are `split("-")` segments, which never contain
a `'-'`. -/
inductive JsNum where
  | fin (q : ℚ)
  | inf
deriving DecidableEq, Repr

/-- The code points JavaScript `Number` strips as whitespace before
parsing (ECMA-262 WhiteSpace and LineTerminator). -/
def jsWsCodes : List Nat :=
  [0x9, 0xA, 0xB, 0xC, 0xD, 0x20, 0xA0, 0x1680, 0x2000, 0x2001, 0x2002, 0x2003,
   0x2004, 0x2005, 0x2006, 0x2007, 0x2008, 0x2009, 0x200A, 0x2028, 0x2029,
   0x202F, 0x205F, 0x3000, 0xFEFF]

/-- Whitespace test for `Number` coercion. -/
def isJsWs (c : Char) : Bool := decide (c.toNat ∈ jsWsCodes)

/-- Strip leading and trailing whitespace, as `Number` does. -/
def trimWs (l : Str) : Str :=
  ((l.dropWhile isJsWs).reverse.dropWhile isJsWs).reverse

/-- Split a string at the first character satisfying `p`. -/
def splitOnceAt (p : Char → Bool) : Str → Option (Str × Str)
  | [] => none
  | c :: cs =>
    if p c then some ([], cs)
    else
      match splitOnceAt p cs with
      | some (a, b) => some (c :: a, b)
      | none => none

/-- Drop one leading `'+'` sign if present. -/
def stripPlus : Str → Str
  | [] => []
  | c :: cs => if c = '+' then cs else c :: cs

/-- Value of a digit character in a radix (hex letters accepted
case-insensitively, as in JavaScript). -/
def radixDigitVal (base : Nat) (c : Char) : Option Nat :=
  let v :=
    if isDigitC c then some (c.toNat - 48)
    else if 'a' ≤ c ∧ c ≤ 'f' then some (c.toNat - 87)
    else if 'A' ≤ c ∧ c ≤ 'F' then some (c.toNat - 55)
    else none
  match v with
  | some n => if n < base then some n else none
  | none => none

/-- Value of a non-empty digit string in a radix. -/
def radixVal (base : Nat) (l : Str) : Option JsNum :=
  if l ≠ [] ∧ l.all (fun c => (radixDigitVal base c).isSome) then
    some (.fin ((l.foldl (fun a c => a * base + (radixDigitVal base c).getD 0) 0 : Nat) : ℚ))
  else none

/-- The mantissa of a decimal literal: digits with at most one `'.'`
(`"5."`, `".5"` and `"5.25"` all parse; a bare `"."` does not). -/
def decMantissa (l : Str) : Option ℚ :=
  match splitOnceAt (fun c => c = '.') l with
  | none => if l ≠ [] ∧ l.all isDigitC then some ((digitsVal l : ℚ)) else none
  | some (ip, fp) =>
    if (ip.all isDigitC ∧ fp.all isDigitC) ∧ (ip ≠ [] ∨ fp ≠ []) then
      some ((digitsVal ip : ℚ) + (digitsVal fp : ℚ) / (10 : ℚ) ^ fp.length)
    else none

/-- The exponent after `e`/`E`: an optional `'+'` then digits (a negative
exponent would contain `'-'`, impossible in a `split("-")` segment). -/
def decExp (l : Str) : Option Nat :=
  if stripPlus l ≠ [] ∧ (stripPlus l).all isDigitC then some (digitsVal (stripPlus l))
  else none

/-- A decimal literal with optional leading `'+'` and exponent part. -/
def parseDec (l : Str) : Option JsNum :=
  match splitOnceAt (fun c => c = 'e' || c = 'E') (stripPlus l) with
  | none => (decMantissa (stripPlus l)).map .fin
  | some (m, e) =>
    match decMantissa m, decExp e with
    | some q, some ex => some (.fin (q * (10 : ℚ) ^ ex))
    | _, _ => none

/-- Whether the string starts with `'0'` followed by one of the two
radix marker characters. -/
def radixMarked (l : Str) (a b : Char) : Bool :=
  match l with
  | c0 :: c1 :: _ => c0 = '0' && (c1 = a || c1 = b)
  | _ => false

/-- JavaScript `Number(s)` on the strings the cleanup code can meet
(`split("-")` segments of database names): `none` stands for `NaN`; the
empty or all-whitespace string coerces to `0`; `"Infinity"` (optionally
signed `'+'`) to `Infinity`; `0x`/`0X`, `0o`/`0O`, `0b`/`0B` prefixes to
radix literals; anything else is read as a decimal literal with optional
`'+'`, fraction and exponent, or `NaN`. -/
def jsNumberCore (l : Str) : Option JsNum :=
  if l = [] then some (.fin 0)
  else if l = "Infinity".data || l = "+Infinity".data then some .inf
  else if radixMarked l 'x' 'X' then radixVal 16 (l.drop 2)
  else if radixMarked l 'o' 'O' then radixVal 8 (l.drop 2)
  else if radixMarked l 'b' 'B' then radixVal 2 (l.drop 2)
  else parseDec l

/-- JavaScript `Number`: whitespace-trim, then parse. -/
def jsNumber (l : Str) : Option JsNum := jsNumberCore (trimWs l)

/-- JavaScript `<` between a coerced segment and an integer cutoff:
`NaN` comparisons are false, and `Infinity < n` is false. -/
def jsLtNum (a : Option JsNum) (n : Int) : Bool :=
  match a with
  | some (.fin q) => q < (n : ℚ)
  | some .inf => false
  | none => false

/-- JavaScript `===` between a coerced segment and an integer cutoff:
`NaN === n` and `Infinity === n` are false. -/
def jsEqNum (a : Option JsNum) (n : Int) : Bool :=
  match a with
  | some (.fin q) => q = (n : ℚ)
  | some .inf => false
  | none => false

/-- `l.split("-")` of JavaScript: split on `'-'`, keeping empty segments;
the empty string yields `[""]`. -/
def splitDash : Str → List Str
  | [] => [[]]
  | c :: cs =>
    if c = '-' then [] :: splitDash cs
    else
      match splitDash cs with
      | [] => [[c]]
      | p :: ps => (c :: p) :: ps

/-- If `pat` is a prefix of `l`, return the remainder of `l` after it. -/
def dropPrefixAfter : Str → Str → Option Str
  | [], l => some l
  | _ :: _, [] => none
  | p :: ps, c :: cs => if p = c then dropPrefixAfter ps cs else none

/-- JavaScript `l.replace(pat, "")`: delete the first occurrence of the
substring `pat` from `l` (identity when there is none). -/
def jsReplaceFirst (pat : Str) : Str → Str
  | [] => []
  | c :: cs =>
    match dropPrefixAfter pat (c :: cs) with
    | some rest => rest
    | none => c :: jsReplaceFirst pat cs

/-- Lowercase hexadecimal digit test (the canonical alphabet
`ObjectId.toString` produces). -/
def isHexDigitC (c : Char) : Bool := isDigitC c || ('a' ≤ c ∧ c ≤ 'f')

/-- Case-insensitive hexadecimal digit test, as in the driver's
`ObjectId` validity check `/^[0-9a-fA-F]{24}$/`. -/
def isHexDigitCI (c : Char) : Bool := isHexDigitC c || ('A' ≤ c ∧ c ≤ 'F')

/-- A string the driver accepts as an `ObjectId` hex form: 24 hex
characters, case-insensitively. -/
def validHex24 (s : Str) : Bool := s.length = 24 && s.all isHexDigitCI

/-- The canonical lowercase 24-hex form, the only form `ObjectId.toString`
ever emits. -/
def lowerHex24 (s : Str) : Bool := s.length = 24 && s.all isHexDigitC

/-- Lowercase the `A`–`F` letters of a string: an accepted hex string is
stored as bytes, and those bytes stringify back to lowercase hex. -/
def toLowerHex (s : Str) : Str :=
  s.map (fun c => if 'A' ≤ c ∧ c ≤ 'F' then Char.ofNat (c.toNat + 32) else c)

/-! ## Civil calendar and ISO week numbering (model of `date-fns`)

Dates are civil day numbers: day `0` is 1970-01-01 (a Thursday).  The civil
conversions follow the standard era-based calendar algorithms; `getISOWeek`
and `getISOWeekYear` are defined through the Thursday of the date's week,
exactly the ISO-8601 rule `date-fns` implements. -/

/-- Civil `(year, month, day)` of a day number (days since 1970-01-01). -/
def civilFromDays (z : Int) : Int × Int × Int :=
  let z' := z + 719468
  let era := z'.fdiv 146097
  let doe := z' - era * 146097
  let yoe := (doe - doe / 1460 + doe / 36524 - doe / 146096) / 365
  let y := yoe + era * 400
  let doy := doe - (365 * yoe + yoe / 4 - yoe / 100)
  let mp := (5 * doy + 2) / 153
  let d := doy - (153 * mp + 2) / 5 + 1
  let m := mp + (if mp < 10 then 3 else -9)
  (if m ≤ 2 then y + 1 else y, m, d)

/-- Day number of a civil `(year, month, day)`. -/
def daysFromCivil (y m d : Int) : Int :=
  let y' := if m ≤ 2 then y - 1 else y
  let era := y'.fdiv 400
  let yoe := y' - era * 400
  let mp := (m + 9).emod 12
  let doy := (153 * mp + 2) / 5 + d - 1
  let doe := yoe * 365 + yoe / 4 - yoe / 100 + doy
  era * 146097 + doe - 719468

/-- ISO day of week, Monday = 1 … Sunday = 7. -/
def isoDayOfWeek (z : Int) : Int := (z + 3).emod 7 + 1

/-- The Thursday of the ISO week containing `z`. -/
def isoThursday (z : Int) : Int := z + 4 - isoDayOfWeek z

/-- `getISOWeekYear` of `date-fns`: the year of the week's Thursday. -/
def getISOWeekYear (z : Int) : Int := (civilFromDays (isoThursday z)).1

/-- `getISOWeek` of `date-fns`: index of the week's Thursday within its year. -/
def getISOWeek (z : Int) : Int :=
  let th := isoThursday z
  (th - daysFromCivil (civilFromDays th).1 1 1) / 7 + 1

/-- `subWeeks` of `date-fns` on day numbers. -/
def subWeeks (z : Int) (w : Nat) : Int := z - 7 * (w : Int)

/-! ## Documents, collections, databases, clusters -/

/-- A BSON `_id` value: an `ObjectId` (by its 24-hex-character string form)
or a plain string.  BSON equality never identifies the two types. -/
inductive BId where
  | oid (s : Str)
  | str (s : Str)
deriving DecidableEq, Repr

/-- `String(_id)` of JavaScript: an `ObjectId` prints as its hex string. -/
def stringifyId : BId → Str
  | .oid s => s
  | .str s => s

/-- `new ObjectId(s)` of the driver: succeeds exactly on a 24-character
hex string (case-insensitively, per `/^[0-9a-fA-F]{24}$/`), yielding the
`ObjectId` with those bytes — whose canonical string form is lowercase —
and otherwise throws a `BSONError`. -/
def newObjectId (s : Str) : Except Unit BId :=
  if validHex24 s then .ok (.oid (toLowerHex s)) else .error ()

/-- A document field value: a BSON date (millisecond timestamp) or an
opaque scalar. -/
inductive Value where
  | vDate (t : Int)
  | vInt (n : Int)
deriving DecidableEq, Repr

/-- Document fields (other than `_id`): field name to value, first match wins. -/
abbrev Fields := List (String × Value)

/-- Lookup of a field in a document. -/
def lookupF : Fields → String → Option Value
  | [], _ => none
  | (k, v) :: rest, n => if k = n then some v else lookupF rest n

/-- A stored document: its `_id` and its other fields. -/
structure DocR where
  id : BId
  fields : Fields
deriving DecidableEq, Repr

/-- A collection: the list of its documents. -/
abbrev Coll := List DocR

/-- A database: collection name to collection, in enumeration order. -/
abbrev Database := List (String × Coll)

/-- A cluster: database name to database. -/
abbrev Cluster := List (String × Database)

/-- First document of a collection with the given `_id`. -/
def collLookup (c : Coll) (i : BId) : Option DocR :=
  match c with
  | [] => none
  | d :: rest => if d.id = i then some d else collLookup rest i

/-- Whether a collection holds a document with the given `_id`. -/
def memId (c : Coll) (i : BId) : Bool := (collLookup c i).isSome

/-- The collection of a database under a name (a missing collection reads
as empty, as in MongoDB). -/
def dbGet : Database → String → Coll
  | [], _ => []
  | (m, c) :: rest, n => if m = n then c else dbGet rest n

/-- Write back a collection under a name (updating the first entry, or
creating the collection if absent). -/
def dbSet : Database → String → Coll → Database
  | [], n, c => [(n, c)]
  | (m, d) :: rest, n, c => if m = n then (n, c) :: rest else (m, d) :: dbSet rest n c

/-- MongoDB `$set` of one field: overwrite the field if present, append it
at the end if not. -/
def setField : Fields → String → Value → Fields
  | [], k, v => [(k, v)]
  | (k0, v0) :: rest, k, v =>
    if k0 = k then (k, v) :: rest else (k0, v0) :: setField rest k v

/-- MongoDB `$set` of a whole document: every field of `upd` is written
over `old`; fields of `old` not mentioned in `upd` are retained. -/
def setMerge (old upd : Fields) : Fields :=
  upd.foldl (fun acc kv => setField acc kv.1 kv.2) old

/-- `updateOne({_id: doc._id}, {$set: doc}, {upsert: true})`: replace-by-merge
when a document with the identity exists, insert the document otherwise. -/
def upsertSet (c : Coll) (doc : DocR) : Coll :=
  if memId c doc.id then
    c.map (fun d => if d.id = doc.id then ⟨d.id, setMerge d.fields doc.fields⟩ else d)
  else c ++ [doc]

/-- `insertMany` (ordered): insert documents one by one; a duplicate `_id`
raises a duplicate-key error, keeping the documents inserted before it. -/
def insertManySeq : Coll → List DocR → Except Coll Coll
  | tgt, [] => .ok tgt
  | tgt, d :: ds => if memId tgt d.id then .error tgt else insertManySeq (tgt ++ [d]) ds

/-! ## Incremental backup engine (`incrementalBackupOneDatabase`)

The copy loop's `updateOne` writes may fail (a thrown driver error aborts
the run); this is modelled by a failure oracle on (collection name, `_id`).
The error payload of `Except` is the partial target database left behind. -/

/-- The reserved checkpoint collection name. -/
def backupMetaColl : String := "_backup_meta"

/-- The `_id` of the incremental-mode checkpoint record. -/
def incrementalMetaId : BId := .str "incremental".toList

/-- `meta?.lastBackupAt ? new Date(meta.lastBackupAt) : new Date(0)`:
the checkpoint timestamp read from the target, epoch (0) when the record
is missing or carries no usable timestamp. -/
def readCheckpoint (tgt : Database) : Int :=
  match collLookup (dbGet tgt backupMetaColl) incrementalMetaId with
  | none => 0
  | some d =>
    match lookupF d.fields "lastBackupAt" with
    | some (.vDate t) => t
    | some (.vInt n) => n
    | none => 0

/-- The filter `{ updatedAt: { $gt: lastBackupAt } }`: matches exactly the
documents whose `updatedAt` field is a date strictly greater than the
checkpoint (a missing or non-date field never matches `$gt` a date). -/
def docChanged (last : Int) (d : DocR) : Bool :=
  match lookupF d.fields "updatedAt" with
  | some (.vDate t) => last < t
  | _ => false

/-- The inner upsert loop over the changed documents of one collection;
a failing write aborts with the partially-updated target collection. -/
def upsertLoop (fail : String → BId → Bool) (name : String) :
    Coll → List DocR → Except Coll Coll
  | tgt, [] => .ok tgt
  | tgt, d :: ds =>
    if fail name d.id then .error tgt
    else upsertLoop fail name (upsertSet tgt d) ds

/-- The per-collection copy loop of the incremental backup: skip the
checkpoint collection, upsert every changed document, record the count. -/
def incLoop (fail : String → BId → Bool) (last : Int) :
    List (String × Coll) → Database → Except Database (Database × List (String × Nat))
  | [], tgt => .ok (tgt, [])
  | (n, c) :: rest, tgt =>
    if n = backupMetaColl then incLoop fail last rest tgt
    else
      match upsertLoop fail n (dbGet tgt n) (c.filter (docChanged last)) with
      | .error pc => .error (dbSet tgt n pc)
      | .ok tc =>
        match incLoop fail last rest (dbSet tgt n tc) with
        | .error t => .error t
        | .ok (t, rep) => .ok (t, (n, (c.filter (docChanged last)).length) :: rep)

/-- Write the checkpoint record:
`metaCol.updateOne({_id:"incremental"}, {$set:{lastBackupAt: now}}, {upsert: true})`. -/
def writeCheckpoint (tgt : Database) (now : Int) : Database :=
  dbSet tgt backupMetaColl
    (upsertSet (dbGet tgt backupMetaColl) ⟨incrementalMetaId, [("lastBackupAt", .vDate now)]⟩)

/-- `ClientDB.incrementalBackupOneDatabase`: read the checkpoint, capture
`now`, copy every changed document of every non-checkpoint source
collection, then (only on success) write the checkpoint to `now`.
Returns the final target database and the per-collection report. -/
def incrementalBackupOneDatabase (fail : String → BId → Bool) (now : Int)
    (src tgt : Database) : Except Database (Database × List (String × Nat)) :=
  let last := readCheckpoint tgt
  match incLoop fail last src tgt with
  | .error t => .error t
  | .ok (t, rep) => .ok (writeCheckpoint t now, rep)

/-! ## Delta backup engine (`deltaBackupOneDatabase`) -/

/-- Keep the first occurrence of each string: the iteration order of a
JavaScript `Set` built by insertion. -/
def dedupStr : List Str → List Str
  | [] => []
  | s :: rest => s :: (dedupStr rest).filter (fun t => t ≠ s)

/-- `Array.from(tgtIds).map(id => new ObjectId(id))`: convert each stored
identity string back to an `ObjectId`, throwing at the first string that
is not one. -/
def mapNewObjectId : List Str → Except Unit (List BId)
  | [] => .ok []
  | s :: rest =>
    match newObjectId s with
    | .error e => .error e
    | .ok i =>
      match mapNewObjectId rest with
      | .error e => .error e
      | .ok is => .ok (i :: is)

/-- One collection of the delta backup: stringify every target `_id`,
convert each back with `new ObjectId` (which throws on a string that is
not valid 24-hex), select the source documents whose `_id` is `$nin` the
converted list, and `insertMany` them.  Errors leave the target collection
as it was (the conversion happens before any insert; an insert error keeps
the documents inserted before it). -/
def deltaOneColl (src tgt : Coll) : Except Coll (Coll × Nat) :=
  let tgtIdStrs := dedupStr (tgt.map (fun d => stringifyId d.id))
  match mapNewObjectId tgtIdStrs with
  | .error _ => .error tgt
  | .ok oids =>
    let newDocs := src.filter (fun d => ¬ d.id ∈ oids)
    match insertManySeq tgt newDocs with
    | .error pc => .error pc
    | .ok tc => .ok (tc, newDocs.length)

/-- The per-collection loop of the delta backup (no collection is skipped). -/
def deltaLoop : List (String × Coll) → Database → Except Database (Database × List (String × Nat))
  | [], tgt => .ok (tgt, [])
  | (n, c) :: rest, tgt =>
    match deltaOneColl c (dbGet tgt n) with
    | .error pc => .error (dbSet tgt n pc)
    | .ok (tc, k) =>
      match deltaLoop rest (dbSet tgt n tc) with
      | .error t => .error t
      | .ok (t, rep) => .ok (t, (n, k) :: rep)

/-- `ClientDB.deltaBackupOneDatabase`: insert-only copy of the source
documents whose identity is missing from the target; no checkpoint is
read or written. -/
def deltaBackupOneDatabase (src tgt : Database) :
    Except Database (Database × List (String × Nat)) :=
  deltaLoop src tgt

/-! ## Full snapshot engine (`fullSyncOneDatabase`) -/

/-- The week-stamped snapshot database name:
`` `${dbName}-week-${week}-${year}` ``. -/
def snapshotDbName (dbName : String) (now : Int) : String :=
  dbName ++ "-week-" ++ toString (getISOWeek now) ++ "-" ++ toString (getISOWeekYear now)

/-- Remove every database of the given name from a cluster
(`dropDatabase` is a no-op when the database does not exist). -/
def clusterDrop (cl : Cluster) (n : String) : Cluster :=
  cl.filter (fun p => p.1 ≠ n)

/-- The snapshot copy loop: for each source collection in enumeration
order, `insertMany` its documents into the same-named collection of the
fresh snapshot database when there are any (an empty collection is not
created).  The error payload is the partial snapshot database. -/
def snapshotCopy : List (String × Coll) → Database → Except Database (Database × List (String × Nat) × Nat)
  | [], acc => .ok (acc, [], 0)
  | (n, c) :: rest, acc =>
    match (if c.length > 0 then insertManySeq (dbGet acc n) c else .ok (dbGet acc n)) with
    | .error pc => .error (dbSet acc n pc)
    | .ok tc =>
      let acc' := if c.length > 0 then dbSet acc n tc else acc
      match snapshotCopy rest acc' with
      | .error t => .error t
      | .ok (t, rep, tot) => .ok (t, (n, c.length) :: rep, tot + c.length)

/-- `ClientDB.fullSyncOneDatabase`: compute the week-stamped snapshot name,
unconditionally drop that database on the target cluster, then copy every
source collection into the fresh snapshot database.  Returns the final
target cluster plus the report; an error returns the partial cluster. -/
def fullSyncOneDatabase (now : Int) (dbName : String) (srcDb : Database)
    (tgtCluster : Cluster) : Except Cluster (Cluster × List (String × Nat) × Nat) :=
  let snap := snapshotDbName dbName now
  let cl := clusterDrop tgtCluster snap
  match snapshotCopy srcDb [] with
  | .error db => .error (if db = [] then cl else cl ++ [(snap, db)])
  | .ok (db, rep, tot) => .ok ((if db = [] then cl else cl ++ [(snap, db)]), rep, tot)

/-! ## Retention cleanup (`cleanupSnapshots`) -/

/-- The drop decision of `cleanupSnapshots` for one already-prefix-matched
name: strip the first occurrence of `base + "-week-"`, split on `"-"`,
coerce segment 0 (week) and segment 1 (year) with JavaScript `Number`, and
judge old by `year < cutoffYear || (year === cutoffYear && week < cutoffWeek)`
(comparisons with `NaN` are false). -/
def isOldSnapshot (cutoffWeek cutoffYear : Int) (pre name : Str) : Bool :=
  let parts := splitDash (jsReplaceFirst pre name)
  let week := match parts.get? 0 with | some s => jsNumber s | none => none
  let year := match parts.get? 1 with | some s => jsNumber s | none => none
  jsLtNum year cutoffYear || (jsEqNum year cutoffYear && jsLtNum week cutoffWeek)

/-- The names dropped by one base's iteration of `cleanupSnapshots`. -/
def droppedForBase (cutoffWeek cutoffYear : Int) (names : List String) (base : String) :
    List String :=
  let pre := base ++ "-week-"
  (names.filter (fun n => pre.toList.isPrefixOf n.toList)).filter
    (fun n => isOldSnapshot cutoffWeek cutoffYear pre.toList n.toList)

/-- `ClientDB.cleanupSnapshots`, observed as the list of database names it
drops: enumerate the cluster's database names once, compute the cutoff as
`subWeeks(now, keepWeeks)` (with `keepWeeks` defaulting to 26) and its ISO
week and week-year, then for each base drop every prefix-matched name
judged old. -/
def cleanupSnapshotsDropped (now : Int) (keepWeeks? : Option Nat)
    (names : List String) (dbs : List String) : List String :=
  let keepWeeks := keepWeeks?.getD 26
  let cutoff := subWeeks now keepWeeks
  let cw := getISOWeek cutoff
  let cy := getISOWeekYear cutoff
  dbs.flatMap (droppedForBase cw cy names)

/-- `ClientDB.cleanupSnapshots` as a cluster transformer: the final cluster
holds exactly the databases whose names were not dropped. -/
def cleanupSnapshots (now : Int) (keepWeeks? : Option Nat) (cl : Cluster)
    (dbs : List String) : Cluster :=
  let dropped := cleanupSnapshotsDropped now keepWeeks? (cl.map (fun p => p.1)) dbs
  cl.filter (fun p => ¬ p.1 ∈ dropped)

/-! ## Ambient environment dependence

`incrementalBackupOneDatabase`, `deltaBackupOneDatabase` and
`fullSyncManyDatabases` connect their *source* client to
`process.env.MONGODB_URI`, not to a call parameter; only the target URI is
explicit.  To reason about this, the connection step is modelled
explicitly: a cluster map assigns to every URI the data of the cluster it
reaches, and the engine entry point picks the source cluster from the
ambient environment. -/

/-- The database of a cluster under a name (`client.db(name)`: a missing
database reads as empty). -/
def dbOf : Cluster → String → Database
  | [], _ => []
  | (m, db) :: rest, n => if m = n then db else dbOf rest n

/-- The ambient process environment, restricted to the variable the engine
reads. -/
structure Env where
  MONGODB_URI : String
deriving DecidableEq

/-- The pair of URIs `incrementalBackupOneDatabase` opens connections to:
the source from `process.env.MONGODB_URI`, the target from the `targetUri`
parameter (source lines 634–637). -/
def incrementalOpenedUris (env : Env) (targetUri : String) : List String :=
  [env.MONGODB_URI, targetUri]

/-- `incrementalBackupOneDatabase` with the connection step made explicit:
the source database is resolved on the cluster reached through the ambient
`MONGODB_URI`, the target database on the cluster reached through the
`targetUri` parameter. -/
def incrementalBackupOneDatabaseEnv (env : Env) (clusters : String → Cluster)
    (fail : String → BId → Bool) (now : Int) (targetUri sourceDb targetDb : String) :
    Except Database (Database × List (String × Nat)) :=
  let src := dbOf (clusters env.MONGODB_URI) sourceDb
  let tgt := dbOf (clusters targetUri) targetDb
  incrementalBackupOneDatabase fail now src tgt

/-! ## Basic lemmas about databases, collections and upserts -/

theorem dbGet_dbSet_same (db : Database) (n : String) (c : Coll) :
    dbGet (dbSet db n c) n = c := by
  induction db with
  | nil => simp [dbGet, dbSet]
  | cons p rest ih =>
    by_cases h : p.1 = n
    · simp [dbGet, dbSet, h]
    · simp [dbGet, dbSet, h, ih]

theorem dbGet_dbSet_ne (db : Database) {n m : String} (c : Coll) (h : m ≠ n) :
    dbGet (dbSet db n c) m = dbGet db m := by
  induction db with
  | nil => simp [dbGet, dbSet, Ne.symm h]
  | cons p rest ih =>
    obtain ⟨pn, pc⟩ := p
    by_cases hp : pn = n
    · subst hp
      simp [dbGet, dbSet, Ne.symm h]
    · by_cases hm : pn = m <;> simp [dbGet, dbSet, hp, hm, ih, h]

theorem dbOf_append_of_not_mem (cl cl' : Cluster) {n : String}
    (h : ∀ p ∈ cl, p.1 ≠ n) : dbOf (cl ++ cl') n = dbOf cl' n := by
  induction cl with
  | nil => simp
  | cons p rest ih =>
    have hp := h p (by simp)
    simp only [List.cons_append, dbOf, if_neg hp]
    exact ih (fun q hq => h q (by simp [hq]))

theorem collLookup_append (a b : Coll) (i : BId) :
    collLookup (a ++ b) i =
      match collLookup a i with
      | some d => some d
      | none => collLookup b i := by
  induction a with
  | nil => simp [collLookup]
  | cons d rest ih =>
    by_cases h : d.id = i <;> simp [collLookup, h, ih]

theorem memId_append (a b : Coll) (i : BId) :
    memId (a ++ b) i = (memId a i || memId b i) := by
  rw [memId, memId, memId, collLookup_append]
  cases collLookup a i <;> simp

theorem memId_iff_exists (c : Coll) (i : BId) :
    memId c i = true ↔ ∃ d ∈ c, d.id = i := by
  induction c with
  | nil => simp [memId, collLookup]
  | cons d rest ih =>
    by_cases h : d.id = i
    · simp [memId, collLookup, h]
    · simp only [memId, collLookup, if_neg h] at ih ⊢
      rw [ih]
      constructor
      · rintro ⟨e, he, hei⟩; exact ⟨e, by simp [he], hei⟩
      · rintro ⟨e, he, hei⟩
        rcases List.mem_cons.mp he with rfl | he'
        · exact absurd hei h
        · exact ⟨e, he', hei⟩

theorem memId_map_id_preserving (c : Coll) (f : DocR → DocR)
    (hf : ∀ x, (f x).id = x.id) (i : BId) : memId (c.map f) i = memId c i := by
  induction c with
  | nil => simp
  | cons d rest ih =>
    by_cases h : d.id = i
    · simp [memId, collLookup, hf, h]
    · simp only [List.map_cons, memId, collLookup, hf, if_neg h] at ih ⊢
      exact ih

theorem memId_upsertSet (c : Coll) (d : DocR) (i : BId) :
    memId (upsertSet c d) i = true ↔ (memId c i = true ∨ d.id = i) := by
  rw [upsertSet]
  by_cases h : memId c d.id
  · rw [if_pos h, memId_map_id_preserving]
    · constructor
      · exact fun hm => Or.inl hm
      · rintro (hm | rfl)
        · exact hm
        · exact h
    · intro x; by_cases hx : x.id = d.id <;> simp [hx]
  · rw [if_neg h, memId_append]
    by_cases hd : d.id = i <;> simp [memId, collLookup, hd]

theorem collLookup_map_merge (c : Coll) (j : BId) (g : DocR → Fields) {i : BId}
    (h : j ≠ i) :
    collLookup (c.map (fun e => if e.id = j then ⟨e.id, g e⟩ else e)) i =
      collLookup c i := by
  induction c with
  | nil => simp [collLookup]
  | cons e rest ih =>
    by_cases he : e.id = j
    · have hei : e.id ≠ i := by rw [he]; exact h
      simp [collLookup, he, hei, ih, h]
    · by_cases hei : e.id = i <;> simp [collLookup, he, hei, ih, h, Ne.symm h]

theorem collLookup_map_merge_self (c : Coll) (j : BId) (g : DocR → Fields) {t : DocR}
    (h : collLookup c j = some t) :
    collLookup (c.map (fun e => if e.id = j then ⟨e.id, g e⟩ else e)) j =
      some ⟨t.id, g t⟩ := by
  induction c with
  | nil => simp [collLookup] at h
  | cons e rest ih =>
    by_cases he : e.id = j
    · rw [collLookup, if_pos he] at h
      cases h
      simp [collLookup, he]
    · rw [collLookup, if_neg he] at h
      simp [collLookup, he, ih h]

theorem collLookup_upsertSet_ne (c : Coll) (d : DocR) {i : BId} (h : d.id ≠ i) :
    collLookup (upsertSet c d) i = collLookup c i := by
  rw [upsertSet]
  by_cases hm : memId c d.id
  · rw [if_pos hm]
    exact collLookup_map_merge c d.id (fun e => setMerge e.fields d.fields) h
  · rw [if_neg hm, collLookup_append]
    cases hc : collLookup c i with
    | some e => simp
    | none => simp [collLookup, h]

theorem collLookup_upsertSet_present (c : Coll) (d : DocR) {t : DocR}
    (h : collLookup c d.id = some t) :
    collLookup (upsertSet c d) d.id = some ⟨t.id, setMerge t.fields d.fields⟩ := by
  have hm : memId c d.id = true := by rw [memId, h]; rfl
  rw [upsertSet, if_pos hm]
  exact collLookup_map_merge_self c d.id (fun e => setMerge e.fields d.fields) h

theorem collLookup_upsertSet_absent (c : Coll) (d : DocR)
    (h : memId c d.id = false) :
    collLookup (upsertSet c d) d.id = some d := by
  rw [upsertSet, h]
  simp only [Bool.false_eq_true, if_false, collLookup_append]
  have : collLookup c d.id = none := by
    rw [memId] at h
    cases hc : collLookup c d.id with
    | none => rfl
    | some e => rw [hc] at h; simp at h
  rw [this]
  simp [collLookup]

/-! ## Lemmas about the incremental copy loop -/

theorem upsertLoop_ok_mem (fail : String → BId → Bool) (name : String) :
    ∀ (ds : List DocR) (tgt t : Coll),
      upsertLoop fail name tgt ds = .ok t →
      ∀ i, (memId t i = true ↔ memId tgt i = true ∨ ∃ d ∈ ds, d.id = i) := by
  intro ds
  induction ds with
  | nil =>
    intro tgt t h i
    rw [upsertLoop] at h
    cases h
    simp
  | cons d rest ih =>
    intro tgt t h i
    rw [upsertLoop] at h
    by_cases hf : fail name d.id
    · rw [if_pos hf] at h; cases h
    · rw [if_neg hf] at h
      rw [ih (upsertSet tgt d) t h i, memId_upsertSet]
      constructor
      · rintro ((hm | rfl) | ⟨e, he, hei⟩)
        · exact Or.inl hm
        · exact Or.inr ⟨d, by simp⟩
        · exact Or.inr ⟨e, by simp [he], hei⟩
      · rintro (hm | ⟨e, he, hei⟩)
        · exact Or.inl (Or.inl hm)
        · rcases List.mem_cons.mp he with rfl | he'
          · exact Or.inl (Or.inr hei)
          · exact Or.inr ⟨e, he', hei⟩

theorem upsertLoop_mem_mono (fail : String → BId → Bool) (name : String) :
    ∀ (ds : List DocR) (tgt t : Coll),
      (upsertLoop fail name tgt ds = .ok t ∨ upsertLoop fail name tgt ds = .error t) →
      ∀ i, memId tgt i = true → memId t i = true := by
  intro ds
  induction ds with
  | nil =>
    intro tgt t h i hm
    rcases h with h | h <;> rw [upsertLoop] at h
    · cases h; exact hm
    · cases h
  | cons d rest ih =>
    intro tgt t h i hm
    rcases h with h | h <;> rw [upsertLoop] at h <;> by_cases hf : fail name d.id
    · rw [if_pos hf] at h; cases h
    · rw [if_neg hf] at h
      exact ih (upsertSet tgt d) t (Or.inl h) i
        ((memId_upsertSet tgt d i).mpr (Or.inl hm))
    · rw [if_pos hf] at h; cases h; exact hm
    · rw [if_neg hf] at h
      exact ih (upsertSet tgt d) t (Or.inr h) i
        ((memId_upsertSet tgt d i).mpr (Or.inl hm))

theorem upsertLoop_lookup_untouched (fail : String → BId → Bool) (name : String) :
    ∀ (ds : List DocR) (tgt t : Coll) {i : BId},
      (upsertLoop fail name tgt ds = .ok t ∨ upsertLoop fail name tgt ds = .error t) →
      (∀ d ∈ ds, d.id ≠ i) →
      collLookup t i = collLookup tgt i := by
  intro ds
  induction ds with
  | nil =>
    intro tgt t i h _
    rcases h with h | h <;> rw [upsertLoop] at h
    · cases h; rfl
    · cases h
  | cons d rest ih =>
    intro tgt t i h hne
    have hd : d.id ≠ i := hne d (by simp)
    rcases h with h | h <;> rw [upsertLoop] at h <;> by_cases hf : fail name d.id
    · rw [if_pos hf] at h; cases h
    · rw [if_neg hf] at h
      rw [ih (upsertSet tgt d) t (Or.inl h) (fun e he => hne e (by simp [he]))]
      exact collLookup_upsertSet_ne tgt d hd
    · rw [if_pos hf] at h; cases h; rfl
    · rw [if_neg hf] at h
      rw [ih (upsertSet tgt d) t (Or.inr h) (fun e he => hne e (by simp [he]))]
      exact collLookup_upsertSet_ne tgt d hd

/-- The per-collection report entries a successful incremental run produces. -/
def incReport (last : Int) (src : List (String × Coll)) : List (String × Nat) :=
  src.filterMap (fun p =>
    if p.1 = backupMetaColl then none
    else some (p.1, (p.2.filter (docChanged last)).length))

theorem incLoop_ok_report (fail : String → BId → Bool) (last : Int) :
    ∀ (src : List (String × Coll)) (tgt t : Database) (rep : List (String × Nat)),
      incLoop fail last src tgt = .ok (t, rep) → rep = incReport last src := by
  intro src
  induction src with
  | nil =>
    intro tgt t rep h
    rw [incLoop] at h
    cases h
    rfl
  | cons p rest ih =>
    intro tgt t rep h
    obtain ⟨n, c⟩ := p
    rw [incLoop] at h
    by_cases hn : n = backupMetaColl
    · rw [if_pos hn] at h
      rw [incReport, List.filterMap_cons]
      simp only [hn, if_pos rfl]
      exact ih tgt t rep h
    · rw [if_neg hn] at h
      split at h
      · exact absurd h (by simp)
      · split at h
        · exact absurd h (by simp)
        · rename_i tc _ t2 rep2 hrec
          rw [Except.ok.injEq, Prod.mk.injEq] at h
          obtain ⟨-, hrep⟩ := h
          rw [← hrep, incReport, List.filterMap_cons]
          simp only [if_neg hn]
          rw [ih _ _ _ hrec]
          rfl

theorem incLoop_meta_preserved (fail : String → BId → Bool) (last : Int) :
    ∀ (src : List (String × Coll)) (tgt : Database)
      (r : Except Database (Database × List (String × Nat))),
      incLoop fail last src tgt = r →
      (∀ t rep, r = .ok (t, rep) → dbGet t backupMetaColl = dbGet tgt backupMetaColl) ∧
      (∀ t, r = .error t → dbGet t backupMetaColl = dbGet tgt backupMetaColl) := by
  intro src
  induction src with
  | nil =>
    intro tgt r h
    rw [incLoop] at h
    subst h
    constructor
    · intro t rep h'
      rw [Except.ok.injEq, Prod.mk.injEq] at h'
      rw [h'.1]
    · intro t h'
      exact absurd h' (by simp)
  | cons p rest ih =>
    intro tgt r h
    obtain ⟨n, c⟩ := p
    rw [incLoop] at h
    by_cases hn : n = backupMetaColl
    · rw [if_pos hn] at h
      exact ih tgt r h
    · rw [if_neg hn] at h
      have hne : backupMetaColl ≠ n := fun hh => hn hh.symm
      split at h
      · rename_i pc hu
        subst h
        constructor
        · intro t rep h'
          exact absurd h' (by simp)
        · intro t h'
          rw [Except.error.injEq] at h'
          rw [← h']
          exact dbGet_dbSet_ne tgt pc hne
      · rename_i tc hu
        have hrec := ih (dbSet tgt n tc) (incLoop fail last rest (dbSet tgt n tc)) rfl
        split at h
        · rename_i t2 hrec2
          subst h
          constructor
          · intro t rep h'
            exact absurd h' (by simp)
          · intro t h'
            rw [Except.error.injEq] at h'
            subst h'
            rw [hrec.2 t2 hrec2]
            exact dbGet_dbSet_ne tgt tc hne
        · rename_i t2 rep2 hrec2
          subst h
          constructor
          · intro t rep h'
            rw [Except.ok.injEq, Prod.mk.injEq] at h'
            obtain ⟨ht, -⟩ := h'
            subst ht
            rw [hrec.1 t2 rep2 hrec2]
            exact dbGet_dbSet_ne tgt tc hne
          · intro t h'
            exact absurd h' (by simp)

theorem incLoop_ok_fresh (fail : String → BId → Bool) (last : Int) :
    ∀ (src : List (String × Coll)) (tgt t : Database) (rep : List (String × Nat)),
      incLoop fail last src tgt = .ok (t, rep) →
      ∀ n, ¬ n ∈ src.map Prod.fst → dbGet t n = dbGet tgt n := by
  intro src
  induction src with
  | nil =>
    intro tgt t rep h n _
    rw [incLoop] at h
    rw [Except.ok.injEq, Prod.mk.injEq] at h
    rw [h.1]
  | cons p rest ih =>
    intro tgt t rep h n hn
    obtain ⟨m, c⟩ := p
    have hnm : n ≠ m := fun hh => hn (by simp [hh])
    have hnrest : ¬ n ∈ rest.map Prod.fst := fun hh => hn (by simp [hh])
    rw [incLoop] at h
    by_cases hm : m = backupMetaColl
    · rw [if_pos hm] at h
      exact ih tgt t rep h n hnrest
    · rw [if_neg hm] at h
      split at h
      · exact absurd h (by simp)
      · rename_i tc hu
        split at h
        · exact absurd h (by simp)
        · rename_i t2 rep2 hrec
          rw [Except.ok.injEq, Prod.mk.injEq] at h
          obtain ⟨ht, -⟩ := h
          subst ht
          rw [ih _ _ _ hrec n hnrest]
          exact dbGet_dbSet_ne tgt tc hnm

theorem incLoop_ok_coll (fail : String → BId → Bool) (last : Int) :
    ∀ (src : List (String × Coll)) (tgt t : Database) (rep : List (String × Nat)),
      (src.map Prod.fst).Nodup →
      incLoop fail last src tgt = .ok (t, rep) →
      ∀ n c, (n, c) ∈ src → n ≠ backupMetaColl →
        upsertLoop fail n (dbGet tgt n) (c.filter (docChanged last)) = .ok (dbGet t n) := by
  intro src
  induction src with
  | nil =>
    intro tgt t rep _ _ n c hmem
    simp at hmem
  | cons p rest ih =>
    intro tgt t rep hnodup h n c hmem hn
    obtain ⟨m, cm⟩ := p
    rw [List.map_cons, List.nodup_cons] at hnodup
    obtain ⟨hmnotin, hnodup'⟩ := hnodup
    rw [incLoop] at h
    by_cases hmmeta : m = backupMetaColl
    · rw [if_pos hmmeta] at h
      rcases List.mem_cons.mp hmem with heq | hmem'
      · rw [Prod.mk.injEq] at heq
        exact absurd (heq.1 ▸ hmmeta) hn
      · exact ih tgt t rep hnodup' h n c hmem' hn
    · rw [if_neg hmmeta] at h
      split at h
      · exact absurd h (by simp)
      · rename_i tc hu
        split at h
        · exact absurd h (by simp)
        · rename_i t2 rep2 hrec
          rw [Except.ok.injEq, Prod.mk.injEq] at h
          obtain ⟨ht, -⟩ := h
          subst ht
          rcases List.mem_cons.mp hmem with heq | hmem'
          · rw [Prod.mk.injEq] at heq
            obtain ⟨hn1, hc1⟩ := heq
            subst hn1; subst hc1
            have hfresh : ¬ n ∈ rest.map Prod.fst := hmnotin
            rw [incLoop_ok_fresh fail last rest _ _ _ hrec n hfresh,
                dbGet_dbSet_same]
            exact hu
          · have hnm : n ≠ m := by
              intro hh
              subst hh
              exact hmnotin (List.mem_map.mpr ⟨(n, c), hmem', rfl⟩)
            have := ih (dbSet tgt m tc) t2 rep2 hnodup' hrec n c hmem' hn
            rw [dbGet_dbSet_ne tgt tc hnm] at this
            exact this

theorem incLoop_ok_mem_mono (fail : String → BId → Bool) (last : Int) :
    ∀ (src : List (String × Coll)) (tgt t : Database) (rep : List (String × Nat)),
      incLoop fail last src tgt = .ok (t, rep) →
      ∀ m i, memId (dbGet tgt m) i = true → memId (dbGet t m) i = true := by
  intro src
  induction src with
  | nil =>
    intro tgt t rep h m i hm
    rw [incLoop] at h
    rw [Except.ok.injEq, Prod.mk.injEq] at h
    rw [← h.1]
    exact hm
  | cons p rest ih =>
    intro tgt t rep h m i hm
    obtain ⟨n, c⟩ := p
    rw [incLoop] at h
    by_cases hn : n = backupMetaColl
    · rw [if_pos hn] at h
      exact ih tgt t rep h m i hm
    · rw [if_neg hn] at h
      split at h
      · exact absurd h (by simp)
      · rename_i tc hu
        split at h
        · exact absurd h (by simp)
        · rename_i t2 rep2 hrec
          rw [Except.ok.injEq, Prod.mk.injEq] at h
          obtain ⟨ht, -⟩ := h
          subst ht
          apply ih _ _ _ hrec m i
          by_cases hmn : m = n
          · subst hmn
            rw [dbGet_dbSet_same]
            exact upsertLoop_mem_mono fail m _ _ _ (Or.inl hu) i hm
          · rw [dbGet_dbSet_ne tgt tc hmn]
            exact hm

/-! ## Lemmas about `$set` merging and the checkpoint record -/

theorem lookupF_setField_same (k : String) (v : Value) :
    ∀ fs : Fields, lookupF (setField fs k v) k = some v := by
  intro fs
  induction fs with
  | nil => simp [setField, lookupF]
  | cons p rest ih =>
    obtain ⟨k0, v0⟩ := p
    by_cases hk : k0 = k
    · simp [setField, hk, lookupF]
    · simp only [setField, if_neg hk, lookupF]
      exact ih

theorem lookupF_setField_ne (k : String) (v : Value) {k' : String} (h : k' ≠ k) :
    ∀ fs : Fields, lookupF (setField fs k v) k' = lookupF fs k' := by
  intro fs
  induction fs with
  | nil =>
    have hne : ¬ k = k' := fun hh => h hh.symm
    simp [setField, lookupF, hne]
  | cons p rest ih =>
    obtain ⟨k0, v0⟩ := p
    by_cases hk : k0 = k
    · have hne : ¬ k = k' := fun hh => h hh.symm
      subst hk
      simp [setField, lookupF, hne]
    · simp only [setField, if_neg hk, lookupF]
      rw [ih]

theorem lookupF_none_of_not_key (k : String) :
    ∀ fs : Fields, ¬ k ∈ fs.map Prod.fst → lookupF fs k = none := by
  intro fs
  induction fs with
  | nil => intro _; rfl
  | cons p rest ih =>
    intro h
    obtain ⟨k0, v0⟩ := p
    have hp : ¬ k0 = k := fun hh => h (by simp [hh])
    have hrest : ¬ k ∈ rest.map Prod.fst := fun hh => h (by simp [hh])
    simp only [lookupF, if_neg hp]
    exact ih hrest

theorem lookupF_setMerge_untouched (upd : Fields) :
    ∀ (old : Fields) (k : String), lookupF upd k = none →
      lookupF (setMerge old upd) k = lookupF old k := by
  induction upd with
  | nil => intro old k _; rfl
  | cons p rest ih =>
    intro old k h
    obtain ⟨k0, v0⟩ := p
    rw [lookupF] at h
    by_cases hk : k0 = k
    · rw [if_pos hk] at h; cases h
    · rw [if_neg hk] at h
      rw [setMerge, List.foldl_cons]
      have := ih (setField old k0 v0) k h
      rw [setMerge] at this
      rw [this]
      exact lookupF_setField_ne k0 v0 (fun hh => hk hh.symm) old

theorem lookupF_setMerge_of_upd (upd : Fields) :
    ∀ (old : Fields) (k : String) (v : Value),
      (upd.map Prod.fst).Nodup → lookupF upd k = some v →
      lookupF (setMerge old upd) k = some v := by
  induction upd with
  | nil =>
    intro old k v _ h
    cases h
  | cons p rest ih =>
    intro old k v hnodup h
    obtain ⟨k0, v0⟩ := p
    rw [List.map_cons, List.nodup_cons] at hnodup
    obtain ⟨hk0notin, hnodup'⟩ := hnodup
    rw [lookupF] at h
    rw [setMerge, List.foldl_cons]
    by_cases hk : k0 = k
    · rw [if_pos hk] at h
      have hv : v0 = v := by injection h
      subst hv
      subst hk
      have hnone : lookupF rest k0 = none := lookupF_none_of_not_key k0 rest hk0notin
      have := lookupF_setMerge_untouched rest (setField old k0 v0) k0 hnone
      rw [setMerge] at this
      rw [this]
      exact lookupF_setField_same k0 v0 old
    · rw [if_neg hk] at h
      have := ih (setField old k0 v0) k v hnodup' h
      rw [setMerge] at this
      exact this

theorem readCheckpoint_writeCheckpoint (tgt : Database) (now : Int) :
    readCheckpoint (writeCheckpoint tgt now) = now := by
  rw [readCheckpoint, writeCheckpoint, dbGet_dbSet_same]
  cases hc : collLookup (dbGet tgt backupMetaColl) incrementalMetaId with
  | none =>
    have hm : memId (dbGet tgt backupMetaColl) incrementalMetaId = false := by
      rw [memId, hc]; rfl
    rw [collLookup_upsertSet_absent _ _ hm]
    rfl
  | some d =>
    rw [collLookup_upsertSet_present _ _ hc]
    have : lookupF (setMerge d.fields [("lastBackupAt", Value.vDate now)]) "lastBackupAt" =
        some (Value.vDate now) := by
      apply lookupF_setMerge_of_upd
      · simp
      · simp [lookupF]
    simp only [this]

theorem dbGet_writeCheckpoint_ne (tgt : Database) (now : Int) {n : String}
    (h : n ≠ backupMetaColl) :
    dbGet (writeCheckpoint tgt now) n = dbGet tgt n := by
  rw [writeCheckpoint]
  exact dbGet_dbSet_ne tgt _ h

/-! ## Claim C1: incremental backup selects exactly the changed documents -/

/-- **C1.**  For every incremental backup run that completes, a source
document in a non-checkpoint collection is copied to the same-named target
collection if and only if its `updatedAt` field is strictly greater than
the `lastBackupAt` of the stored checkpoint record; a missing checkpoint
record reads as the epoch (`0`); the checkpoint collection is excluded
from enumeration, and every other enumerated collection appears in the
report with its changed-document count, including count zero. -/
theorem C1_incremental_copy_iff_changed
    (fail : String → BId → Bool) (now : Int) (src tgt t : Database)
    (rep : List (String × Nat))
    (hnames : (src.map Prod.fst).Nodup)
    (hrun : incrementalBackupOneDatabase fail now src tgt = .ok (t, rep)) :
    (collLookup (dbGet tgt backupMetaColl) incrementalMetaId = none →
        readCheckpoint tgt = 0) ∧
    (∀ n c, (n, c) ∈ src → n ≠ backupMetaColl →
        (n, (c.filter (docChanged (readCheckpoint tgt))).length) ∈ rep) ∧
    (∀ e ∈ rep, e.1 ≠ backupMetaColl) ∧
    (∀ n c, (n, c) ∈ src → n ≠ backupMetaColl → ∀ d ∈ c,
        docChanged (readCheckpoint tgt) d = true → memId (dbGet t n) d.id = true) ∧
    (∀ n c, (n, c) ∈ src → n ≠ backupMetaColl → (c.map DocR.id).Nodup →
        ∀ d ∈ c, memId (dbGet tgt n) d.id = false →
        (memId (dbGet t n) d.id = true ↔ docChanged (readCheckpoint tgt) d = true)) := by
  rw [incrementalBackupOneDatabase] at hrun
  split at hrun
  · exact absurd hrun (by simp)
  · rename_i t0 rep0 hloop
    rw [Except.ok.injEq, Prod.mk.injEq] at hrun
    obtain ⟨ht, hrep⟩ := hrun
    subst ht
    subst hrep
    refine ⟨?_, ?_, ?_, ?_, ?_⟩
    · intro h
      rw [readCheckpoint, h]
    · intro n c hmem hn
      rw [incLoop_ok_report fail (readCheckpoint tgt) src tgt t0 rep0 hloop]
      rw [incReport]
      exact List.mem_filterMap.mpr ⟨(n, c), hmem, by simp [hn]⟩
    · intro e he
      rw [incLoop_ok_report fail (readCheckpoint tgt) src tgt t0 rep0 hloop] at he
      rw [incReport] at he
      obtain ⟨p, -, hp⟩ := List.mem_filterMap.mp he
      by_cases hmeta : p.1 = backupMetaColl
      · rw [if_pos hmeta] at hp; cases hp
      · rw [if_neg hmeta] at hp
        rw [Option.some.injEq] at hp
        rw [← hp]
        exact hmeta
    · intro n c hmem hn d hd hch
      have hcoll := incLoop_ok_coll fail (readCheckpoint tgt) src tgt t0 rep0
        hnames hloop n c hmem hn
      rw [dbGet_writeCheckpoint_ne t0 now hn]
      have := upsertLoop_ok_mem fail n (c.filter (docChanged (readCheckpoint tgt)))
        (dbGet tgt n) (dbGet t0 n) hcoll d.id
      exact this.mpr (Or.inr ⟨d, List.mem_filter.mpr ⟨hd, hch⟩, rfl⟩)
    · intro n c hmem hn hids d hd hfresh
      have hcoll := incLoop_ok_coll fail (readCheckpoint tgt) src tgt t0 rep0
        hnames hloop n c hmem hn
      rw [dbGet_writeCheckpoint_ne t0 now hn]
      rw [upsertLoop_ok_mem fail n (c.filter (docChanged (readCheckpoint tgt)))
        (dbGet tgt n) (dbGet t0 n) hcoll d.id]
      rw [hfresh]
      constructor
      · rintro (hfalse | ⟨d', hd', hid⟩)
        · cases hfalse
        · obtain ⟨hd'c, hch'⟩ := List.mem_filter.mp hd'
          have : d' = d := List.inj_on_of_nodup_map hids hd'c hd hid
          rw [← this]
          exact hch'
      · intro hch
        exact Or.inr ⟨d, List.mem_filter.mpr ⟨hd, hch⟩, rfl⟩

/-- A failure oracle under which every write succeeds. -/
def noFail : String → BId → Bool := fun _ _ => false

/-- Concrete source database for the C1 witness: one changed document, one
unchanged document, one empty collection. -/
def c1orders : Coll :=
  [⟨.str ['a'], [("updatedAt", .vDate 5)]⟩, ⟨.str ['b'], [("x", .vInt 0)]⟩]

/-- Concrete source database for the C1 witness. -/
def c1src : Database := [("orders", c1orders), ("empty", [])]

/-- The target database produced by the C1 witness run. -/
def c1t : Database :=
  [("orders", [⟨.str ['a'], [("updatedAt", .vDate 5)]⟩]), ("empty", []),
   ("_backup_meta", [⟨.str "incremental".toList, [("lastBackupAt", .vDate 100)]⟩])]

/-- The report produced by the C1 witness run. -/
def c1rep : List (String × Nat) := [("orders", 1), ("empty", 0)]

/-- Witness for C1: on a concrete run from an empty target, the changed
document is copied, the unchanged one is not, and both collections are
reported (the empty one with count zero). -/
theorem C1_incremental_copy_iff_changed_witness :
    ("orders", 1) ∈ c1rep ∧ ("empty", 0) ∈ c1rep ∧
    memId (dbGet c1t "orders") (BId.str ['a']) = true ∧
    memId (dbGet c1t "orders") (BId.str ['b']) = false := by
  have h := C1_incremental_copy_iff_changed noFail 100 c1src [] c1t c1rep
    (by decide) (by rfl)
  refine ⟨?_, ?_, ?_, ?_⟩
  · have h2 := h.2.1 "orders" c1orders (by decide) (by decide)
    simpa using h2
  · have h2 := h.2.1 "empty" [] (by decide) (by decide)
    simpa using h2
  · exact h.2.2.2.1 "orders" c1orders (by decide) (by decide)
      ⟨.str ['a'], [("updatedAt", .vDate 5)]⟩ (by decide) (by decide)
  · have h5 := h.2.2.2.2 "orders" c1orders (by decide) (by decide) (by decide)
      ⟨.str ['b'], [("x", .vInt 0)]⟩ (by decide) (by decide)
    rw [Bool.eq_false_iff]
    intro hmem
    have := h5.mp hmem
    exact absurd this (by decide)

/-! ## Claim C2: the checkpoint is the run's start time and is monotone -/

/-- One incremental run in a sequence: the next target-database state,
whether the run succeeds or aborts mid-loop (the aborted state is what the
failed run leaves behind). -/
def incRunStep (st : Database) (r : (String → BId → Bool) × Int × Database) : Database :=
  match incrementalBackupOneDatabase r.1 r.2.1 r.2.2 st with
  | .ok (t, _) => t
  | .error t => t

/-- The target-database states along a sequence of incremental runs,
starting with the initial state. -/
def incRunStates (tgt0 : Database)
    (runs : List ((String → BId → Bool) × Int × Database)) : List Database :=
  runs.scanl incRunStep tgt0

theorem chain_le_of_le {a b : Int} (l : List Int) (hab : a ≤ b)
    (h : List.Chain (· ≤ ·) b l) : List.Chain (· ≤ ·) a l := by
  cases l with
  | nil => exact List.Chain.nil
  | cons x l' =>
    rw [List.chain_cons] at h ⊢
    exact ⟨le_trans hab h.1, h.2⟩

/-- **C2.**  A successful incremental run writes the checkpoint exactly to
the `now` captured before the copy loop; a run failing inside the copy
loop leaves the checkpoint unchanged; consequently, across any sequence of
non-overlapping runs (run start times non-decreasing and at or after the
initially stored checkpoint), the stored `lastBackupAt` never decreases. -/
theorem C2_checkpoint_start_time_and_monotone :
    (∀ (fail : String → BId → Bool) (now : Int) (src tgt t : Database)
        (rep : List (String × Nat)),
        incrementalBackupOneDatabase fail now src tgt = .ok (t, rep) →
        readCheckpoint t = now) ∧
    (∀ (fail : String → BId → Bool) (now : Int) (src tgt t : Database),
        incrementalBackupOneDatabase fail now src tgt = .error t →
        readCheckpoint t = readCheckpoint tgt) ∧
    (∀ (runs : List ((String → BId → Bool) × Int × Database)) (tgt0 : Database),
        List.Chain (· ≤ ·) (readCheckpoint tgt0) (runs.map (fun r => r.2.1)) →
        List.Chain' (· ≤ ·) ((incRunStates tgt0 runs).map readCheckpoint)) := by
  have hok : ∀ (fail : String → BId → Bool) (now : Int) (src tgt t : Database)
      (rep : List (String × Nat)),
      incrementalBackupOneDatabase fail now src tgt = .ok (t, rep) →
      readCheckpoint t = now := by
    intro fail now src tgt t rep h
    rw [incrementalBackupOneDatabase] at h
    split at h
    · exact absurd h (by simp)
    · rename_i t0 rep0 hloop
      rw [Except.ok.injEq, Prod.mk.injEq] at h
      rw [← h.1]
      exact readCheckpoint_writeCheckpoint t0 now
  have herr : ∀ (fail : String → BId → Bool) (now : Int) (src tgt t : Database),
      incrementalBackupOneDatabase fail now src tgt = .error t →
      readCheckpoint t = readCheckpoint tgt := by
    intro fail now src tgt t h
    rw [incrementalBackupOneDatabase] at h
    split at h
    · rename_i t0 hloop
      rw [Except.error.injEq] at h
      subst h
      have hmeta := (incLoop_meta_preserved fail (readCheckpoint tgt) src tgt
        (.error t0) hloop).2 t0 rfl
      rw [readCheckpoint, readCheckpoint, hmeta]
    · exact absurd h (by simp)
  refine ⟨hok, herr, ?_⟩
  intro runs
  induction runs with
  | nil =>
    intro tgt0 _
    simp [incRunStates, List.scanl]
  | cons r rest ih =>
    intro tgt0 hch
    rw [List.map_cons, List.chain_cons] at hch
    obtain ⟨h0, hch'⟩ := hch
    rw [incRunStates, List.scanl]
    rw [List.map_cons]
    have hstep : readCheckpoint (incRunStep tgt0 r) = r.2.1 ∨
        readCheckpoint (incRunStep tgt0 r) = readCheckpoint tgt0 := by
      rw [incRunStep]
      cases hrun : incrementalBackupOneDatabase r.1 r.2.1 r.2.2 tgt0 with
      | ok p => exact Or.inl (hok r.1 r.2.1 r.2.2 tgt0 p.1 p.2 (by rw [hrun]))
      | error t => exact Or.inr (herr r.1 r.2.1 r.2.2 tgt0 t hrun)
    have hch'' : List.Chain (· ≤ ·) (readCheckpoint (incRunStep tgt0 r))
        (rest.map (fun r => r.2.1)) := by
      rcases hstep with he | he
      · rw [he]; exact hch'
      · rw [he]
        exact chain_le_of_le _ h0 hch'
    have htail := ih (incRunStep tgt0 r) hch''
    rw [incRunStates] at htail
    cases hrest : rest.scanl incRunStep (incRunStep tgt0 r) with
    | nil =>
      have := congrArg List.length hrest
      rw [List.length_scanl] at this
      simp at this
    | cons s ss =>
      rw [hrest] at htail
      rw [List.map_cons]
      rw [List.chain'_cons]
      constructor
      · have hs : s = incRunStep tgt0 r := by
          cases rest with
          | nil =>
            rw [List.scanl_nil] at hrest
            rw [List.cons.injEq] at hrest
            exact hrest.1.symm
          | cons a l =>
            rw [List.scanl_cons] at hrest
            rw [List.singleton_append, List.cons.injEq] at hrest
            exact hrest.1.symm
        rw [hs]
        rcases hstep with he | he
        · rw [he]; exact h0
        · rw [he]
      · exact htail

/-- A failure oracle under which every write fails. -/
def failAll : String → BId → Bool := fun _ _ => true

/-- Witness for C2: a successful concrete run stores its start time `100`;
a concrete run whose first write fails leaves the (empty) checkpoint
unchanged; and the checkpoint trace of a concrete two-run sequence is
non-decreasing. -/
theorem C2_checkpoint_start_time_and_monotone_witness :
    readCheckpoint c1t = 100 ∧
    readCheckpoint [("orders", [])] = readCheckpoint ([] : Database) ∧
    List.Chain' (· ≤ ·)
      ((incRunStates [] [(noFail, 100, c1src), (noFail, 200, c1src)]).map readCheckpoint) := by
  refine ⟨?_, ?_, ?_⟩
  · exact C2_checkpoint_start_time_and_monotone.1 noFail 100 c1src [] c1t c1rep (by rfl)
  · exact C2_checkpoint_start_time_and_monotone.2.1 failAll 100 c1src []
      [("orders", [])] (by rfl)
  · apply C2_checkpoint_start_time_and_monotone.2.2
    show List.Chain (· ≤ ·) (readCheckpoint []) [(100 : Int), 200]
    have h0 : readCheckpoint ([] : Database) = 0 := by rfl
    rw [h0]
    exact List.Chain.cons (by norm_num) (List.Chain.cons (by norm_num) List.Chain.nil)

/-! ## Lemmas about the delta copy loop -/

theorem insertManySeq_ok_eq :
    ∀ (ds : List DocR) (tgt tc : Coll),
      insertManySeq tgt ds = .ok tc → tc = tgt ++ ds := by
  intro ds
  induction ds with
  | nil =>
    intro tgt tc h
    rw [insertManySeq] at h
    rw [Except.ok.injEq] at h
    rw [← h]
    simp
  | cons d rest ih =>
    intro tgt tc h
    rw [insertManySeq] at h
    by_cases hm : memId tgt d.id
    · rw [if_pos hm] at h; cases h
    · rw [if_neg hm] at h
      rw [ih (tgt ++ [d]) tc h]
      simp

theorem insertManySeq_error_extends :
    ∀ (ds : List DocR) (tgt pc : Coll),
      insertManySeq tgt ds = .error pc → ∃ l, pc = tgt ++ l := by
  intro ds
  induction ds with
  | nil =>
    intro tgt pc h
    rw [insertManySeq] at h
    cases h
  | cons d rest ih =>
    intro tgt pc h
    rw [insertManySeq] at h
    by_cases hm : memId tgt d.id
    · rw [if_pos hm] at h
      rw [Except.error.injEq] at h
      exact ⟨[], by rw [← h]; simp⟩
    · rw [if_neg hm] at h
      obtain ⟨l, hl⟩ := ih (tgt ++ [d]) pc h
      exact ⟨[d] ++ l, by rw [hl]; simp⟩

theorem deltaOneColl_ok_extends (src tgt tc : Coll) (k : Nat)
    (h : deltaOneColl src tgt = .ok (tc, k)) :
    ∃ nd, tc = tgt ++ nd ∧ k = nd.length := by
  rw [deltaOneColl] at h
  split at h
  · cases h
  · rename_i oids hoids
    dsimp only at h
    split at h
    · cases h
    · rename_i tc' hins
      rw [Except.ok.injEq, Prod.mk.injEq] at h
      obtain ⟨h1, h2⟩ := h
      refine ⟨src.filter (fun d => ¬ d.id ∈ oids), ?_, ?_⟩
      · rw [← h1]
        exact insertManySeq_ok_eq _ tgt tc' hins
      · rw [← h2]

theorem deltaLoop_ok_mem_mono :
    ∀ (src : List (String × Coll)) (tgt t : Database) (rep : List (String × Nat)),
      deltaLoop src tgt = .ok (t, rep) →
      ∀ m i, memId (dbGet tgt m) i = true → memId (dbGet t m) i = true := by
  intro src
  induction src with
  | nil =>
    intro tgt t rep h m i hm
    rw [deltaLoop] at h
    rw [Except.ok.injEq, Prod.mk.injEq] at h
    rw [← h.1]
    exact hm
  | cons p rest ih =>
    intro tgt t rep h m i hm
    obtain ⟨n, c⟩ := p
    rw [deltaLoop] at h
    split at h
    · cases h
    · rename_i tc k hone
      split at h
      · cases h
      · rename_i t2 rep2 hrec
        rw [Except.ok.injEq, Prod.mk.injEq] at h
        obtain ⟨ht, -⟩ := h
        subst ht
        apply ih _ _ _ hrec m i
        by_cases hmn : m = n
        · subst hmn
          rw [dbGet_dbSet_same]
          obtain ⟨nd, hnd, -⟩ := deltaOneColl_ok_extends c (dbGet tgt m) tc k hone
          rw [hnd, memId_append, hm]
          rfl
        · rw [dbGet_dbSet_ne tgt tc hmn]
          exact hm

/-! ## Claim C3: neither incremental nor delta ever deletes a target document -/

/-- **C3.**  For every document identity present in a target collection
before a completed incremental or delta run, the identity is still present
in that collection afterwards: neither mode deletes target documents. -/
theorem C3_no_delete :
    (∀ (fail : String → BId → Bool) (now : Int) (src tgt t : Database)
        (rep : List (String × Nat)),
        incrementalBackupOneDatabase fail now src tgt = .ok (t, rep) →
        ∀ m i, memId (dbGet tgt m) i = true → memId (dbGet t m) i = true) ∧
    (∀ (src tgt t : Database) (rep : List (String × Nat)),
        deltaBackupOneDatabase src tgt = .ok (t, rep) →
        ∀ m i, memId (dbGet tgt m) i = true → memId (dbGet t m) i = true) := by
  constructor
  · intro fail now src tgt t rep h m i hm
    rw [incrementalBackupOneDatabase] at h
    split at h
    · exact absurd h (by simp)
    · rename_i t0 rep0 hloop
      rw [Except.ok.injEq, Prod.mk.injEq] at h
      obtain ⟨ht, -⟩ := h
      subst ht
      have hmono := incLoop_ok_mem_mono fail (readCheckpoint tgt) src tgt t0 rep0
        hloop m i hm
      by_cases hmeta : m = backupMetaColl
      · subst hmeta
        rw [writeCheckpoint, dbGet_dbSet_same]
        exact (memId_upsertSet _ _ i).mpr (Or.inl hmono)
      · rw [dbGet_writeCheckpoint_ne t0 now hmeta]
        exact hmono
  · intro src tgt t rep h m i hm
    rw [deltaBackupOneDatabase] at h
    exact deltaLoop_ok_mem_mono src tgt t rep h m i hm

/-- Witness for C3: in concrete incremental and delta runs against a
target holding one document, that document is still present afterwards. -/
theorem C3_no_delete_witness :
    memId
      (dbGet (incRunStep [("orders", [⟨.str ['z'], []⟩])] (noFail, 100, c1src)) "orders")
      (BId.str ['z']) = true ∧
    memId (dbGet [("orders", [⟨.str ['z'], []⟩])] "orders") (BId.str ['z']) = true := by
  constructor
  · exact C3_no_delete.1 noFail 100 c1src [("orders", [⟨.str ['z'], []⟩])]
      (incRunStep [("orders", [⟨.str ['z'], []⟩])] (noFail, 100, c1src)) c1rep
      (by rfl) "orders" (BId.str ['z']) (by decide)
  · decide

/-! ## Claim C7: the incremental "upsert" is a `$set` merge, not a replace

The source performs `updateOne({_id: doc._id}, {$set: doc}, {upsert: true})`.
`$set` writes every field of the source document over the existing target
document but *retains* target fields the source document does not carry,
so the result is a merge, not a replacement. -/

/-- Source database for the C7 counterexample: one changed document whose
fields are `updatedAt` and `a`. -/
def c7src : Database :=
  [("c", [⟨.str ['a'], [("updatedAt", .vDate 5), ("a", .vInt 1)]⟩])]

/-- Target database for the C7 counterexample: the same identity already
exists with an extra field `b` the source does not carry. -/
def c7tgt : Database :=
  [("c", [⟨.str ['a'], [("updatedAt", .vDate 1), ("b", .vInt 2)]⟩])]

/-- The target database after the C7 counterexample run: the extra field
`b` survives the upsert. -/
def c7t : Database :=
  [("c", [⟨.str ['a'], [("updatedAt", .vDate 5), ("b", .vInt 2), ("a", .vInt 1)]⟩]),
   ("_backup_meta", [⟨.str "incremental".toList, [("lastBackupAt", .vDate 100)]⟩])]

/-- Counterexample to C7: after the upsert of a changed source document
onto an existing target document, the target document is *not* equal to
the source document — the field `b`, absent from the source document, is
still present on the target. -/
theorem C7_counterexample :
    incrementalBackupOneDatabase noFail 100 c7src c7tgt = .ok (c7t, [("c", 1)]) ∧
    collLookup (dbGet c7t "c") (BId.str ['a']) ≠
      some ⟨BId.str ['a'], [("updatedAt", .vDate 5), ("a", .vInt 1)]⟩ ∧
    (collLookup (dbGet c7t "c") (BId.str ['a'])).map
        (fun d => lookupF d.fields "b") = some (some (.vInt 2)) := by
  refine ⟨by rfl, by decide, by decide⟩

theorem upsertLoop_ok_lookup_single (fail : String → BId → Bool) (name : String) :
    ∀ (ds : List DocR) (tgt t : Coll),
      upsertLoop fail name tgt ds = .ok t → (ds.map DocR.id).Nodup →
      ∀ d ∈ ds, ∀ t0, collLookup tgt d.id = some t0 →
        collLookup t d.id = some ⟨t0.id, setMerge t0.fields d.fields⟩ := by
  intro ds
  induction ds with
  | nil =>
    intro tgt t _ _ d hd
    simp at hd
  | cons e rest ih =>
    intro tgt t h hnodup d hd t0 hlook
    rw [List.map_cons, List.nodup_cons] at hnodup
    obtain ⟨henotin, hnodup'⟩ := hnodup
    rw [upsertLoop] at h
    by_cases hf : fail name e.id
    · rw [if_pos hf] at h; cases h
    · rw [if_neg hf] at h
      rcases List.mem_cons.mp hd with rfl | hd'
      · have hpres := collLookup_upsertSet_present tgt d hlook
        have huntouched : ∀ d' ∈ rest, d'.id ≠ d.id := by
          intro d' hd' hh
          exact henotin (hh ▸ List.mem_map.mpr ⟨d', hd', rfl⟩)
        rw [upsertLoop_lookup_untouched fail name rest (upsertSet tgt d) t
          (Or.inl h) huntouched]
        exact hpres
      · have hne : e.id ≠ d.id := by
          intro hh
          exact henotin (hh ▸ List.mem_map.mpr ⟨d, hd', rfl⟩)
        have hlook' : collLookup (upsertSet tgt e) d.id = some t0 := by
          rw [collLookup_upsertSet_ne tgt e hne]
          exact hlook
        exact ih (upsertSet tgt e) t h hnodup' d hd' t0 hlook'

/-- **C7 (amended).**  When an incremental run upserts a changed source
document whose identity already exists in the target collection, the
result is the `$set` merge of the two: every field of the source document
is written with the source's value, but a field of the existing target
document that the source document does not carry is retained — the target
document does not in general equal the source document. -/
theorem C7_amended_upsert_is_set_merge
    (fail : String → BId → Bool) (now : Int) (src tgt t : Database)
    (rep : List (String × Nat))
    (hnames : (src.map Prod.fst).Nodup)
    (hrun : incrementalBackupOneDatabase fail now src tgt = .ok (t, rep))
    (n : String) (c : Coll) (hmem : (n, c) ∈ src) (hn : n ≠ backupMetaColl)
    (hids : (c.map DocR.id).Nodup)
    (d : DocR) (hd : d ∈ c) (hch : docChanged (readCheckpoint tgt) d = true)
    (hkeys : (d.fields.map Prod.fst).Nodup)
    (t0 : DocR) (hlook : collLookup (dbGet tgt n) d.id = some t0) :
    collLookup (dbGet t n) d.id = some ⟨t0.id, setMerge t0.fields d.fields⟩ ∧
    (∀ k v, lookupF d.fields k = some v →
        lookupF (setMerge t0.fields d.fields) k = some v) ∧
    (∀ k, lookupF d.fields k = none →
        lookupF (setMerge t0.fields d.fields) k = lookupF t0.fields k) := by
  rw [incrementalBackupOneDatabase] at hrun
  split at hrun
  · exact absurd hrun (by simp)
  · rename_i t0' rep0 hloop
    rw [Except.ok.injEq, Prod.mk.injEq] at hrun
    obtain ⟨ht, -⟩ := hrun
    subst ht
    refine ⟨?_, ?_, ?_⟩
    · rw [dbGet_writeCheckpoint_ne t0' now hn]
      have hcoll := incLoop_ok_coll fail (readCheckpoint tgt) src tgt t0' rep0
        hnames hloop n c hmem hn
      have hfilterids : ((c.filter (docChanged (readCheckpoint tgt))).map DocR.id).Nodup :=
        List.Nodup.sublist (List.Sublist.map DocR.id (List.filter_sublist c)) hids
      exact upsertLoop_ok_lookup_single fail n _ _ _ hcoll hfilterids d
        (List.mem_filter.mpr ⟨hd, hch⟩) t0 hlook
    · intro k v hv
      exact lookupF_setMerge_of_upd d.fields t0.fields k v hkeys hv
    · intro k hk
      exact lookupF_setMerge_untouched d.fields t0.fields k hk

/-- Witness for the amended C7: in the concrete counterexample run, the
target document is exactly the merge, the source field `a` is written,
and the target-only field `b` is retained. -/
theorem C7_amended_upsert_is_set_merge_witness :
    collLookup (dbGet c7t "c") (BId.str ['a']) =
      some ⟨BId.str ['a'],
        setMerge [("updatedAt", .vDate 1), ("b", .vInt 2)]
          [("updatedAt", .vDate 5), ("a", .vInt 1)]⟩ ∧
    lookupF
      (setMerge [("updatedAt", .vDate 1), ("b", .vInt 2)]
        [("updatedAt", .vDate 5), ("a", .vInt 1)]) "b" =
      lookupF [("updatedAt", .vDate 1), ("b", .vInt 2)] "b" := by
  have h := C7_amended_upsert_is_set_merge noFail 100 c7src c7tgt c7t [("c", 1)]
    (by decide) (by rfl) "c" [⟨.str ['a'], [("updatedAt", .vDate 5), ("a", .vInt 1)]⟩]
    (by decide) (by decide) (by decide)
    ⟨.str ['a'], [("updatedAt", .vDate 5), ("a", .vInt 1)]⟩ (by decide) (by decide)
    (by decide) ⟨.str ['a'], [("updatedAt", .vDate 1), ("b", .vInt 2)]⟩ (by decide)
  exact ⟨h.1, h.2.2 "b" (by decide)⟩

/-! ## Characterization of the delta backup under well-formed identities -/

/-- Every document of the collection carries an `ObjectId` identity, in
its canonical lowercase string form (the only form `ObjectId.toString`
produces for a stored identity). -/
def allValidOid (c : Coll) : Prop :=
  ∀ d ∈ c, ∃ s, d.id = BId.oid s ∧ lowerHex24 s = true

instance (c : Coll) : Decidable (allValidOid c) := by
  unfold allValidOid
  have : ∀ d : DocR, Decidable (∃ s, d.id = BId.oid s ∧ lowerHex24 s = true) := by
    intro d
    cases hd : d.id with
    | oid s =>
      by_cases hv : lowerHex24 s = true
      · exact isTrue ⟨s, rfl, hv⟩
      · exact isFalse (by rintro ⟨s', hs', hv'⟩; cases hs'; exact hv hv')
    | str s =>
      exact isFalse (by rintro ⟨s', hs', -⟩; cases hs')
  exact List.decidableBAll _ c

theorem validHex24_of_lower {s : Str} (h : lowerHex24 s = true) :
    validHex24 s = true := by
  rw [lowerHex24, Bool.and_eq_true] at h
  rw [validHex24, Bool.and_eq_true]
  refine ⟨h.1, ?_⟩
  rw [List.all_eq_true] at h ⊢
  intro c hc
  rw [isHexDigitCI, Bool.or_eq_true]
  exact Or.inl (h.2 c hc)

theorem toLowerHex_of_lower {s : Str} (h : s.all isHexDigitC = true) :
    toLowerHex s = s := by
  rw [toLowerHex]
  rw [List.all_eq_true] at h
  have hpt : ∀ c ∈ s,
      (if 'A' ≤ c ∧ c ≤ 'F' then Char.ofNat (c.toNat + 32) else c) = c := by
    intro c hc
    have hd := h c hc
    rw [isHexDigitC, Bool.or_eq_true] at hd
    rcases hd with hd | hd
    · rw [isDigitC, decide_eq_true_eq] at hd
      have h1 : 48 ≤ c.toNat := hd.1
      have h2 : c.toNat ≤ 57 := hd.2
      rw [if_neg]
      rintro ⟨hA, -⟩
      have h3 : 65 ≤ c.toNat := hA
      omega
    · rw [decide_eq_true_eq] at hd
      have h1 : 97 ≤ c.toNat := hd.1
      rw [if_neg]
      rintro ⟨-, hF⟩
      have h2 : c.toNat ≤ 70 := hF
      omega
  calc s.map (fun c => if 'A' ≤ c ∧ c ≤ 'F' then Char.ofNat (c.toNat + 32) else c)
      = s.map id := List.map_congr_left hpt
    _ = s := List.map_id s

/-- On a canonical lowercase hex string, the driver conversion round-trips
to the same `ObjectId`. -/
theorem newObjectId_canon {s : Str} (h : lowerHex24 s = true) :
    newObjectId s = .ok (.oid s) := by
  rw [newObjectId, if_pos (validHex24_of_lower h)]
  rw [lowerHex24, Bool.and_eq_true] at h
  rw [toLowerHex_of_lower h.2]

theorem dedupStr_mem (s : Str) : ∀ l : List Str, s ∈ dedupStr l ↔ s ∈ l := by
  intro l
  induction l with
  | nil => simp [dedupStr]
  | cons a rest ih =>
    rw [dedupStr]
    by_cases hs : s = a
    · subst hs
      simp
    · constructor
      · intro hmem
        rcases List.mem_cons.mp hmem with rfl | hmem'
        · exact absurd rfl hs
        · exact List.mem_cons.mpr (Or.inr (ih.mp (List.mem_filter.mp hmem').1))
      · intro hmem
        rcases List.mem_cons.mp hmem with rfl | hmem'
        · exact absurd rfl hs
        · exact List.mem_cons.mpr
            (Or.inr (List.mem_filter.mpr ⟨ih.mpr hmem', by simp [hs]⟩))

theorem mapNewObjectId_error_of_mem {s : Str} (hbad : newObjectId s = .error ()) :
    ∀ l : List Str, s ∈ l → mapNewObjectId l = .error () := by
  intro l
  induction l with
  | nil => intro h; simp at h
  | cons a rest ih =>
    intro hmem
    rw [mapNewObjectId]
    cases ha : newObjectId a with
    | error e => rfl
    | ok i =>
      rcases List.mem_cons.mp hmem with rfl | hmem'
      · rw [newObjectId] at ha hbad
        by_cases hv : validHex24 s = true
        · rw [if_pos hv] at hbad; cases hbad
        · rw [if_neg hv] at ha; cases ha
      · rw [ih hmem']

theorem mapNewObjectId_ok_of_valid :
    ∀ l : List Str, (∀ s ∈ l, lowerHex24 s = true) →
      mapNewObjectId l = .ok (l.map BId.oid) := by
  intro l
  induction l with
  | nil => intro _; rfl
  | cons a rest ih =>
    intro hv
    rw [mapNewObjectId, newObjectId_canon (hv a (by simp)),
      ih (fun s hs => hv s (by simp [hs]))]
    rfl

theorem collLookup_of_mem_nodup :
    ∀ (c : Coll), (c.map DocR.id).Nodup → ∀ d ∈ c, collLookup c d.id = some d := by
  intro c
  induction c with
  | nil => intro _ d hd; simp at hd
  | cons e rest ih =>
    intro hnodup d hd
    rw [List.map_cons, List.nodup_cons] at hnodup
    obtain ⟨henotin, hnodup'⟩ := hnodup
    rcases List.mem_cons.mp hd with rfl | hd'
    · rw [collLookup, if_pos rfl]
    · have hne : e.id ≠ d.id := by
        intro hh
        exact henotin (hh ▸ List.mem_map.mpr ⟨d, hd', rfl⟩)
      rw [collLookup, if_neg hne]
      exact ih hnodup' d hd'

theorem insertManySeq_ok_of_fresh :
    ∀ (ds : List DocR) (tgt : Coll),
      (∀ d ∈ ds, memId tgt d.id = false) → (ds.map DocR.id).Nodup →
      insertManySeq tgt ds = .ok (tgt ++ ds) := by
  intro ds
  induction ds with
  | nil => intro tgt _ _; simp [insertManySeq]
  | cons d rest ih =>
    intro tgt hfresh hnodup
    rw [List.map_cons, List.nodup_cons] at hnodup
    obtain ⟨hdnotin, hnodup'⟩ := hnodup
    rw [insertManySeq, if_neg (by rw [hfresh d (by simp)]; simp)]
    have hfresh' : ∀ e ∈ rest, memId (tgt ++ [d]) e.id = false := by
      intro e he
      rw [memId_append, hfresh e (by simp [he])]
      have : d.id ≠ e.id := by
        intro hh
        exact hdnotin (hh ▸ List.mem_map.mpr ⟨e, he, rfl⟩)
      simp [memId, collLookup, this]
    rw [ih (tgt ++ [d]) hfresh' hnodup']
    simp

/-- The list of `ObjectId`s the delta filter is built from, for a
well-formed target collection. -/
theorem delta_oids_mem (tgt : Coll) (hwf : allValidOid tgt) :
    ∀ i, i ∈ (dedupStr (tgt.map (fun d => stringifyId d.id))).map BId.oid ↔
      memId tgt i = true := by
  intro i
  rw [memId_iff_exists]
  constructor
  · intro hmem
    obtain ⟨s, hs, hoid⟩ := List.mem_map.mp hmem
    rw [dedupStr_mem] at hs
    obtain ⟨d, hd, hstr⟩ := List.mem_map.mp hs
    obtain ⟨s', hid, -⟩ := hwf d hd
    refine ⟨d, hd, ?_⟩
    rw [hid]
    rw [hid, stringifyId] at hstr
    rw [← hoid, hstr]
  · rintro ⟨d, hd, rfl⟩
    obtain ⟨s', hid, -⟩ := hwf d hd
    apply List.mem_map.mpr
    refine ⟨stringifyId d.id, ?_, ?_⟩
    · rw [dedupStr_mem]
      exact List.mem_map.mpr ⟨d, hd, rfl⟩
    · rw [hid, stringifyId]

theorem deltaOneColl_ok_char (src tgt : Coll) (hwf : allValidOid tgt)
    (hids : (src.map DocR.id).Nodup) :
    deltaOneColl src tgt =
      .ok (tgt ++ src.filter (fun d => memId tgt d.id = false),
           (src.filter (fun d => memId tgt d.id = false)).length) := by
  have hvalid : ∀ s ∈ dedupStr (tgt.map (fun d => stringifyId d.id)),
      lowerHex24 s = true := by
    intro s hs
    rw [dedupStr_mem] at hs
    obtain ⟨d, hd, hstr⟩ := List.mem_map.mp hs
    obtain ⟨s', hid, hv⟩ := hwf d hd
    rw [hid, stringifyId] at hstr
    rw [← hstr]
    exact hv
  rw [deltaOneColl]
  rw [mapNewObjectId_ok_of_valid _ hvalid]
  dsimp only
  have hfilter : src.filter
      (fun d => ¬ d.id ∈ (dedupStr (tgt.map (fun d => stringifyId d.id))).map BId.oid) =
      src.filter (fun d => memId tgt d.id = false) := by
    apply List.filter_congr
    intro d _
    rw [decide_eq_decide]
    rw [delta_oids_mem tgt hwf d.id]
    constructor
    · intro h
      cases hm : memId tgt d.id
      · rfl
      · exact absurd hm h
    · intro h hh
      rw [h] at hh
      cases hh
  rw [hfilter]
  have hfresh : ∀ d ∈ src.filter (fun d => memId tgt d.id = false),
      memId tgt d.id = false := by
    intro d hd
    have := (List.mem_filter.mp hd).2
    simpa using this
  have hnodup' : ((src.filter (fun d => memId tgt d.id = false)).map DocR.id).Nodup :=
    List.Nodup.sublist (List.Sublist.map DocR.id (List.filter_sublist src)) hids
  rw [insertManySeq_ok_of_fresh _ tgt hfresh hnodup']

theorem deltaLoop_ok_fresh :
    ∀ (src : List (String × Coll)) (tgt t : Database) (rep : List (String × Nat)),
      deltaLoop src tgt = .ok (t, rep) →
      ∀ n, ¬ n ∈ src.map Prod.fst → dbGet t n = dbGet tgt n := by
  intro src
  induction src with
  | nil =>
    intro tgt t rep h n _
    rw [deltaLoop] at h
    rw [Except.ok.injEq, Prod.mk.injEq] at h
    rw [← h.1]
  | cons p rest ih =>
    intro tgt t rep h n hn
    obtain ⟨m, c⟩ := p
    have hnm : n ≠ m := fun hh => hn (by simp [hh])
    have hnrest : ¬ n ∈ rest.map Prod.fst := fun hh => hn (by simp [hh])
    rw [deltaLoop] at h
    split at h
    · cases h
    · rename_i tc k hone
      split at h
      · cases h
      · rename_i t2 rep2 hrec
        rw [Except.ok.injEq, Prod.mk.injEq] at h
        obtain ⟨ht, -⟩ := h
        subst ht
        rw [ih _ _ _ hrec n hnrest]
        exact dbGet_dbSet_ne tgt tc hnm

theorem deltaLoop_ok_coll :
    ∀ (src : List (String × Coll)) (tgt t : Database) (rep : List (String × Nat)),
      (src.map Prod.fst).Nodup →
      deltaLoop src tgt = .ok (t, rep) →
      ∀ n c, (n, c) ∈ src →
        ∃ k, deltaOneColl c (dbGet tgt n) = .ok (dbGet t n, k) ∧ (n, k) ∈ rep := by
  intro src
  induction src with
  | nil =>
    intro tgt t rep _ _ n c hmem
    simp at hmem
  | cons p rest ih =>
    intro tgt t rep hnodup h n c hmem
    obtain ⟨m, cm⟩ := p
    rw [List.map_cons, List.nodup_cons] at hnodup
    obtain ⟨hmnotin, hnodup'⟩ := hnodup
    rw [deltaLoop] at h
    split at h
    · cases h
    · rename_i tc k hone
      split at h
      · cases h
      · rename_i t2 rep2 hrec
        rw [Except.ok.injEq, Prod.mk.injEq] at h
        obtain ⟨ht, hrep⟩ := h
        subst ht
        rcases List.mem_cons.mp hmem with heq | hmem'
        · rw [Prod.mk.injEq] at heq
          obtain ⟨hn1, hc1⟩ := heq
          subst hn1; subst hc1
          refine ⟨k, ?_, ?_⟩
          · rw [deltaLoop_ok_fresh rest _ _ _ hrec n hmnotin, dbGet_dbSet_same]
            exact hone
          · rw [← hrep]
            simp
        · have hnm : n ≠ m := by
            intro hh
            subst hh
            exact hmnotin (List.mem_map.mpr ⟨(n, c), hmem', rfl⟩)
          obtain ⟨k', hone', hrep'⟩ := ih (dbSet tgt m tc) t2 rep2 hnodup' hrec n c hmem'
          rw [dbGet_dbSet_ne tgt tc hnm] at hone'
          exact ⟨k', hone', by rw [← hrep]; simp [hrep']⟩

theorem deltaLoop_ok_of_wf :
    ∀ (src : List (String × Coll)) (tgt : Database),
      (src.map Prod.fst).Nodup →
      (∀ n c, (n, c) ∈ src → allValidOid (dbGet tgt n) ∧ (c.map DocR.id).Nodup) →
      ∃ t rep, deltaLoop src tgt = .ok (t, rep) := by
  intro src
  induction src with
  | nil =>
    intro tgt _ _
    exact ⟨tgt, [], rfl⟩
  | cons p rest ih =>
    intro tgt hnodup hwf
    obtain ⟨m, cm⟩ := p
    rw [List.map_cons, List.nodup_cons] at hnodup
    obtain ⟨hmnotin, hnodup'⟩ := hnodup
    obtain ⟨hwfm, hidsm⟩ := hwf m cm (by simp)
    have hone := deltaOneColl_ok_char cm (dbGet tgt m) hwfm hidsm
    have hwf' : ∀ n c, (n, c) ∈ rest →
        allValidOid (dbGet (dbSet tgt m
          (dbGet tgt m ++ cm.filter (fun d => memId (dbGet tgt m) d.id = false))) n) ∧
        (c.map DocR.id).Nodup := by
      intro n c hmem
      have hnm : n ≠ m := by
        intro hh
        subst hh
        exact hmnotin (List.mem_map.mpr ⟨(n, c), hmem, rfl⟩)
      rw [dbGet_dbSet_ne tgt _ hnm]
      exact hwf n c (by simp [hmem])
    obtain ⟨t, rep, hrec⟩ := ih _ hnodup' hwf'
    refine ⟨t, (m, (cm.filter (fun d => memId (dbGet tgt m) d.id = false)).length) :: rep, ?_⟩
    rw [deltaLoop, hone]
    dsimp only
    rw [hrec]

theorem deltaOneColl_error_of_badid (src tgt : Coll) {d : DocR} (hd : d ∈ tgt)
    (hbad : newObjectId (stringifyId d.id) = .error ()) :
    deltaOneColl src tgt = .error tgt := by
  rw [deltaOneColl]
  have : mapNewObjectId (dedupStr (tgt.map (fun e => stringifyId e.id))) = .error () := by
    apply mapNewObjectId_error_of_mem hbad
    rw [dedupStr_mem]
    exact List.mem_map.mpr ⟨d, hd, rfl⟩
  rw [this]

theorem deltaOneColl_extends (src tgt : Coll) :
    ∀ r, deltaOneColl src tgt = r →
      (∀ tc k, r = .ok (tc, k) → ∃ l, tc = tgt ++ l) ∧
      (∀ pc, r = .error pc → ∃ l, pc = tgt ++ l) := by
  intro r h
  constructor
  · intro tc k hr
    subst hr
    obtain ⟨nd, hnd, -⟩ := deltaOneColl_ok_extends src tgt tc k h
    exact ⟨nd, hnd⟩
  · intro pc hr
    subst hr
    rw [deltaOneColl] at h
    split at h
    · rw [Except.error.injEq] at h
      subst h
      exact ⟨[], by simp⟩
    · rename_i oids hoids
      dsimp only at h
      split at h
      · rename_i pc2 hins
        rw [Except.error.injEq] at h
        subst h
        exact insertManySeq_error_extends _ tgt pc2 hins
      · cases h

theorem deltaLoop_error_of_badid :
    ∀ (src : List (String × Coll)) (tgt : Database),
      (∃ n c, (n, c) ∈ src ∧ ∃ d ∈ dbGet tgt n,
        newObjectId (stringifyId d.id) = .error ()) →
      ∃ t, deltaLoop src tgt = .error t := by
  intro src
  induction src with
  | nil =>
    intro tgt h
    obtain ⟨n, c, hmem, -⟩ := h
    simp at hmem
  | cons p rest ih =>
    intro tgt hbad
    obtain ⟨n, c, hmem, d, hd, hconv⟩ := hbad
    obtain ⟨m, cm⟩ := p
    rw [deltaLoop]
    cases hone : deltaOneColl cm (dbGet tgt m) with
    | error pc => exact ⟨dbSet tgt m pc, rfl⟩
    | ok pr =>
      obtain ⟨tc, k⟩ := pr
      rcases List.mem_cons.mp hmem with heq | hmem'
      · rw [Prod.mk.injEq] at heq
        obtain ⟨hn1, -⟩ := heq
        subst hn1
        rw [deltaOneColl_error_of_badid cm (dbGet tgt n) hd hconv] at hone
        cases hone
      · have hbad' : ∃ n' c', (n', c') ∈ rest ∧ ∃ d' ∈ dbGet (dbSet tgt m tc) n',
            newObjectId (stringifyId d'.id) = .error () := by
          refine ⟨n, c, hmem', d, ?_, hconv⟩
          by_cases hnm : n = m
          · subst hnm
            rw [dbGet_dbSet_same]
            obtain ⟨l, hl⟩ := (deltaOneColl_extends cm (dbGet tgt n) _ hone).1 tc k rfl
            rw [hl]
            exact List.mem_append_left l hd
          · rw [dbGet_dbSet_ne tgt tc hnm]
            exact hd
        obtain ⟨t, ht⟩ := ih (dbSet tgt m tc) hbad'
        refine ⟨t, ?_⟩
        dsimp only
        rw [ht]

/-! ## Claim C5: delta completeness holds only for `ObjectId` identities

The delta filter is built by stringifying every target `_id` and
reconstructing it as an `ObjectId`.  A target identity that is a *string*
of 24 hex characters round-trips into an `ObjectId`, and a source document
carrying that `ObjectId` is then judged present even though its identity
(an `ObjectId`, not a string) is absent from the target — so the claim as
stated fails on mixed identity types. -/

/-- A 24-hex-character string used as both a string identity and an
`ObjectId` identity. -/
def c5hex : Str := "0123456789abcdef01234567".toList

/-- C5 counterexample source: one document whose identity is the
`ObjectId` with hex `c5hex`. -/
def c5src : Database := [("c", [⟨.oid c5hex, [("a", .vInt 1)]⟩])]

/-- C5 counterexample target: one document whose identity is the *string*
`c5hex` (a different BSON value than the `ObjectId`). -/
def c5tgt : Database := [("c", [⟨.str c5hex, [("a", .vInt 9)]⟩])]

/-- Counterexample to C5: the delta run completes, the source document's
identity is absent from the target collection before the run, and it is
*still absent* after the run — the "every absent source document is
present afterwards" part of the claim fails. -/
theorem C5_counterexample :
    deltaBackupOneDatabase c5src c5tgt = .ok (c5tgt, [("c", 0)]) ∧
    memId (dbGet c5tgt "c") (BId.oid c5hex) = false := by
  refine ⟨by rfl, by decide⟩

/-- **C5 (amended).**  Under the precondition that every identity in the
enumerated source collections and their corresponding target collections
is a valid `ObjectId` (and source identities are distinct), the delta run
completes and: every source document whose identity is absent from the
corresponding target collection before the run is present, with its exact
value, after the run; every pre-existing target document is left with its
value unaltered; collections not enumerated in the source are untouched;
and when the source does not enumerate the checkpoint collection, the
checkpoint is neither changed nor created. -/
theorem C5_amended_delta_insert_only
    (src tgt : Database)
    (hnames : (src.map Prod.fst).Nodup)
    (hwf : ∀ n c, (n, c) ∈ src →
      allValidOid (dbGet tgt n) ∧ allValidOid c ∧ (c.map DocR.id).Nodup) :
    ∃ t rep, deltaBackupOneDatabase src tgt = .ok (t, rep) ∧
      (∀ n c, (n, c) ∈ src → ∀ d ∈ c, memId (dbGet tgt n) d.id = false →
        collLookup (dbGet t n) d.id = some d) ∧
      (∀ n c, (n, c) ∈ src → ∀ i d0, collLookup (dbGet tgt n) i = some d0 →
        collLookup (dbGet t n) i = some d0) ∧
      (∀ n, ¬ n ∈ src.map Prod.fst → dbGet t n = dbGet tgt n) ∧
      (¬ backupMetaColl ∈ src.map Prod.fst → readCheckpoint t = readCheckpoint tgt) := by
  obtain ⟨t, rep, hrun⟩ := deltaLoop_ok_of_wf src tgt hnames
    (fun n c hm => ⟨(hwf n c hm).1, (hwf n c hm).2.2⟩)
  refine ⟨t, rep, hrun, ?_, ?_, ?_, ?_⟩
  · intro n c hmem d hd habsent
    obtain ⟨k, hone, -⟩ := deltaLoop_ok_coll src tgt t rep hnames hrun n c hmem
    obtain ⟨hwf1, -, hwf3⟩ := hwf n c hmem
    rw [deltaOneColl_ok_char c (dbGet tgt n) hwf1 hwf3] at hone
    rw [Except.ok.injEq, Prod.mk.injEq] at hone
    obtain ⟨ht, -⟩ := hone
    rw [← ht, collLookup_append]
    have hnone : collLookup (dbGet tgt n) d.id = none := by
      rw [memId] at habsent
      cases hc : collLookup (dbGet tgt n) d.id with
      | none => rfl
      | some e => rw [hc] at habsent; simp at habsent
    rw [hnone]
    have hfilterids : ((c.filter (fun d => memId (dbGet tgt n) d.id = false)).map DocR.id).Nodup :=
      List.Nodup.sublist (List.Sublist.map DocR.id (List.filter_sublist c)) hwf3
    exact collLookup_of_mem_nodup _ hfilterids d
      (List.mem_filter.mpr ⟨hd, by simp [habsent]⟩)
  · intro n c hmem i d0 hlook
    obtain ⟨k, hone, -⟩ := deltaLoop_ok_coll src tgt t rep hnames hrun n c hmem
    obtain ⟨hwf1, -, hwf3⟩ := hwf n c hmem
    rw [deltaOneColl_ok_char c (dbGet tgt n) hwf1 hwf3] at hone
    rw [Except.ok.injEq, Prod.mk.injEq] at hone
    obtain ⟨ht, -⟩ := hone
    rw [← ht, collLookup_append, hlook]
  · intro n hn
    exact deltaLoop_ok_fresh src tgt t rep hrun n hn
  · intro hmeta
    rw [readCheckpoint, readCheckpoint,
      deltaLoop_ok_fresh src tgt t rep hrun backupMetaColl hmeta]

/-- Witness for the amended C5: a concrete well-formed delta run inserts
the absent document, leaves the existing one untouched, and leaves the
checkpoint collection alone. -/
theorem C5_amended_delta_insert_only_witness :
    ∃ t rep,
      deltaBackupOneDatabase
        [("c", [⟨.oid c5hex, [("a", .vInt 1)]⟩])]
        [("c", [⟨.oid "0123456789abcdef01234568".toList, [("b", .vInt 2)]⟩])] =
        .ok (t, rep) ∧
      collLookup (dbGet t "c") (BId.oid c5hex) =
        some ⟨.oid c5hex, [("a", .vInt 1)]⟩ ∧
      collLookup (dbGet t "c") (BId.oid "0123456789abcdef01234568".toList) =
        some ⟨.oid "0123456789abcdef01234568".toList, [("b", .vInt 2)]⟩ := by
  obtain ⟨t, rep, hrun, hins, hpres, -, -⟩ := C5_amended_delta_insert_only
    [("c", [⟨.oid c5hex, [("a", .vInt 1)]⟩])]
    [("c", [⟨.oid "0123456789abcdef01234568".toList, [("b", .vInt 2)]⟩])]
    (by decide)
    (by
      intro n c hmem
      rw [List.mem_singleton, Prod.mk.injEq] at hmem
      obtain ⟨rfl, rfl⟩ := hmem
      exact ⟨by decide, by decide, by decide⟩)
  refine ⟨t, rep, hrun, ?_, ?_⟩
  · exact hins "c" [⟨.oid c5hex, [("a", .vInt 1)]⟩] (by decide)
      ⟨.oid c5hex, [("a", .vInt 1)]⟩ (by decide) (by decide)
  · exact hpres "c" [⟨.oid c5hex, [("a", .vInt 1)]⟩] (by decide)
      (BId.oid "0123456789abcdef01234568".toList)
      ⟨.oid "0123456789abcdef01234568".toList, [("b", .vInt 2)]⟩ (by decide)

/-! ## Claim C10: the `ObjectId` round-trip in the delta filter -/

/-- **C10.**  The delta backup stringifies every target identity and
reconstructs it with `new ObjectId`.  (a) If some enumerated source
collection's target counterpart holds a document whose identity does not
stringify to a valid `ObjectId`, the run terminates with an error instead
of copying.  (b) Under the precondition that every identity on both sides
is a valid `ObjectId` (with distinct source identities), the conversion's
error branch is never taken and the run completes. -/
theorem C10_delta_objectid_roundtrip :
    (∀ (src tgt : Database) (n : String) (c : Coll) (d : DocR),
      (n, c) ∈ src → d ∈ dbGet tgt n →
      newObjectId (stringifyId d.id) = .error () →
      ∃ t, deltaBackupOneDatabase src tgt = .error t) ∧
    (∀ (src tgt : Database),
      (src.map Prod.fst).Nodup →
      (∀ n c, (n, c) ∈ src →
        allValidOid (dbGet tgt n) ∧ allValidOid c ∧ (c.map DocR.id).Nodup) →
      ∃ t rep, deltaBackupOneDatabase src tgt = .ok (t, rep)) := by
  constructor
  · intro src tgt n c d hmem hd hbad
    exact deltaLoop_error_of_badid src tgt ⟨n, c, hmem, d, hd, hbad⟩
  · intro src tgt hnames hwf
    exact deltaLoop_ok_of_wf src tgt hnames
      (fun n c hm => ⟨(hwf n c hm).1, (hwf n c hm).2.2⟩)

/-- Witness for C10: a concrete delta run against a target document whose
identity is the string `"hello"` terminates with an error, and a concrete
all-`ObjectId` run completes. -/
theorem C10_delta_objectid_roundtrip_witness :
    (∃ t, deltaBackupOneDatabase c5src [("c", [⟨.str "hello".toList, []⟩])] = .error t) ∧
    (∃ t rep, deltaBackupOneDatabase c5src [("c", [])] = .ok (t, rep)) := by
  constructor
  · exact C10_delta_objectid_roundtrip.1 c5src [("c", [⟨.str "hello".toList, []⟩])]
      "c" [⟨.oid c5hex, [("a", .vInt 1)]⟩] ⟨.str "hello".toList, []⟩
      (by decide) (by decide) (by rfl)
  · exact C10_delta_objectid_roundtrip.2 c5src [("c", [])] (by decide)
      (by
        intro n c hmem
        rw [c5src, List.mem_singleton, Prod.mk.injEq] at hmem
        obtain ⟨rfl, rfl⟩ := hmem
        exact ⟨by decide, by decide, by decide⟩)

/-! ## Lemmas about the full snapshot copy -/

theorem dbGet_of_mem_nodup :
    ∀ (db : Database), (db.map Prod.fst).Nodup →
      ∀ n c, (n, c) ∈ db → dbGet db n = c := by
  intro db
  induction db with
  | nil => intro _ n c hmem; simp at hmem
  | cons p rest ih =>
    intro hnodup n c hmem
    obtain ⟨m, cm⟩ := p
    rw [List.map_cons, List.nodup_cons] at hnodup
    obtain ⟨hmnotin, hnodup'⟩ := hnodup
    rcases List.mem_cons.mp hmem with heq | hmem'
    · rw [Prod.mk.injEq] at heq
      obtain ⟨rfl, rfl⟩ := heq
      rw [dbGet, if_pos rfl]
    · have hnm : m ≠ n := by
        intro hh
        subst hh
        exact hmnotin (List.mem_map.mpr ⟨(m, c), hmem', rfl⟩)
      rw [dbGet, if_neg hnm]
      exact ih hnodup' n c hmem'

theorem dbGet_eq_nil_of_not_mem :
    ∀ (db : Database) (n : String), ¬ n ∈ db.map Prod.fst → dbGet db n = [] := by
  intro db
  induction db with
  | nil => intro n _; rfl
  | cons p rest ih =>
    intro n hn
    obtain ⟨m, cm⟩ := p
    have hnm : m ≠ n := fun hh => hn (by simp [hh])
    rw [dbGet, if_neg hnm]
    exact ih n (fun hh => hn (by simp [hh]))

theorem snapshotCopy_ok_char :
    ∀ (src : List (String × Coll)) (acc : Database),
      (src.map Prod.fst).Nodup →
      (∀ n c, (n, c) ∈ src → (c.map DocR.id).Nodup ∧ dbGet acc n = []) →
      ∃ db tot,
        snapshotCopy src acc = .ok (db, src.map (fun p => (p.1, p.2.length)), tot) ∧
        (∀ n c, (n, c) ∈ src → dbGet db n = c) ∧
        (∀ n, ¬ n ∈ src.map Prod.fst → dbGet db n = dbGet acc n) := by
  intro src
  induction src with
  | nil =>
    intro acc _ _
    exact ⟨acc, 0, rfl, by intro n c hmem; simp at hmem, by intro n _; rfl⟩
  | cons p rest ih =>
    intro acc hnodup hwf
    obtain ⟨m, cm⟩ := p
    rw [List.map_cons, List.nodup_cons] at hnodup
    obtain ⟨hmnotin, hnodup'⟩ := hnodup
    obtain ⟨hidsm, haccm⟩ := hwf m cm (by simp)
    by_cases hcm : cm.length > 0
    · have hins : insertManySeq (dbGet acc m) cm = .ok cm := by
        rw [haccm]
        have := insertManySeq_ok_of_fresh cm []
          (by intro d _; rfl) hidsm
        rw [List.nil_append] at this
        exact this
      have hwf' : ∀ n c, (n, c) ∈ rest →
          (c.map DocR.id).Nodup ∧ dbGet (dbSet acc m cm) n = [] := by
        intro n c hmem
        have hnm : n ≠ m := by
          intro hh
          subst hh
          exact hmnotin (List.mem_map.mpr ⟨(n, c), hmem, rfl⟩)
        rw [dbGet_dbSet_ne acc cm hnm]
        exact hwf n c (by simp [hmem])
      obtain ⟨db, tot, hrec, hget, hfresh⟩ := ih (dbSet acc m cm) hnodup' hwf'
      refine ⟨db, tot + cm.length, ?_, ?_, ?_⟩
      · rw [snapshotCopy, if_pos hcm, hins]
        dsimp only
        rw [if_pos hcm, hrec]
        dsimp only
        simp
      · intro n c hmem
        rcases List.mem_cons.mp hmem with heq | hmem'
        · rw [Prod.mk.injEq] at heq
          obtain ⟨rfl, rfl⟩ := heq
          rw [hfresh n hmnotin, dbGet_dbSet_same]
        · exact hget n c hmem'
      · intro n hn
        have hnm : n ≠ m := fun hh => hn (by simp [hh])
        rw [hfresh n (fun hh => hn (by simp [hh])), dbGet_dbSet_ne acc cm hnm]
    · have hcmnil : cm = [] := by
        cases cm with
        | nil => rfl
        | cons a l => simp at hcm
      subst hcmnil
      have hwf' : ∀ n c, (n, c) ∈ rest →
          (c.map DocR.id).Nodup ∧ dbGet acc n = [] := by
        intro n c hmem
        exact hwf n c (by simp [hmem])
      obtain ⟨db, tot, hrec, hget, hfresh⟩ := ih acc hnodup' hwf'
      refine ⟨db, tot + 0, ?_, ?_, ?_⟩
      · rw [snapshotCopy]
        simp only [List.length_nil, gt_iff_lt, lt_self_iff_false, if_false]
        rw [hrec]
        dsimp only
        simp
      · intro n c hmem
        rcases List.mem_cons.mp hmem with heq | hmem'
        · rw [Prod.mk.injEq] at heq
          obtain ⟨rfl, rfl⟩ := heq
          rw [hfresh n hmnotin]
          exact hwf n [] (by simp) |>.2
        · exact hget n c hmem'
      · intro n hn
        exact hfresh n (fun hh => hn (by simp [hh]))

/-! ## Claim C4: full sync is idempotent within an ISO week -/

/-- The target cluster left behind by a full-sync run, whether it
completed or aborted (an aborted run leaves its partial snapshot, which
the next run's unconditional drop discards). -/
def fullSyncResultCluster (now : Int) (dbName : String) (srcDb : Database)
    (cl : Cluster) : Cluster :=
  match fullSyncOneDatabase now dbName srcDb cl with
  | .ok (c, _, _) => c
  | .error c => c

theorem clusterDrop_filter_name (cl : Cluster) (n : String) (db : Database) :
    ((clusterDrop cl n) ++ [(n, db)]).filter (fun p => p.1 = n) = [(n, db)] := by
  rw [List.filter_append]
  have h1 : (clusterDrop cl n).filter (fun p => p.1 = n) = [] := by
    rw [List.filter_eq_nil_iff]
    intro p hp
    have := List.mem_filter.mp hp
    simp only [decide_eq_true_eq] at this
    simp [this.2]
  rw [h1]
  simp

/-- **C4.**  Two full-sync runs of the same base database within the same
ISO week target one and the same snapshot database name (base name ++
`"-week-"` ++ ISO week ++ `"-"` ++ ISO week-year); the second run drops
that database before repopulating it, so after the second run exactly one
database of that name exists on the cluster and its contents equal the
source's contents at the time of the second run — never a merge of the
two runs. -/
theorem C4_fullsync_idempotent_same_week
    (now1 now2 : Int) (dbName : String) (src1 src2 : Database) (cl0 : Cluster)
    (hweek : getISOWeek now1 = getISOWeek now2)
    (hyear : getISOWeekYear now1 = getISOWeekYear now2)
    (hnames : (src2.map Prod.fst).Nodup)
    (hids : ∀ n c, (n, c) ∈ src2 → (c.map DocR.id).Nodup)
    (hnonempty : ∃ p, p ∈ src2 ∧ p.2 ≠ []) :
    snapshotDbName dbName now1 = snapshotDbName dbName now2 ∧
    snapshotDbName dbName now2 =
      dbName ++ "-week-" ++ toString (getISOWeek now2) ++ "-" ++
        toString (getISOWeekYear now2) ∧
    ∃ cl2 tot,
      fullSyncOneDatabase now2 dbName src2
          (fullSyncResultCluster now1 dbName src1 cl0) =
        .ok (cl2, src2.map (fun p => (p.1, p.2.length)), tot) ∧
      (cl2.filter (fun p => p.1 = snapshotDbName dbName now2)).length = 1 ∧
      (∀ n, dbGet (dbOf cl2 (snapshotDbName dbName now2)) n = dbGet src2 n) := by
  refine ⟨by rw [snapshotDbName, snapshotDbName, hweek, hyear], rfl, ?_⟩
  obtain ⟨db, tot, hcopy, hget, hfresh⟩ := snapshotCopy_ok_char src2 [] hnames
    (fun n c hm => ⟨hids n c hm, rfl⟩)
  have hdbne : db ≠ [] := by
    obtain ⟨⟨n, c⟩, hmem, hcne⟩ := hnonempty
    intro hdb
    subst hdb
    exact hcne ((hget n c hmem).symm.trans rfl)
  set cl1 := fullSyncResultCluster now1 dbName src1 cl0 with hcl1
  refine ⟨clusterDrop cl1 (snapshotDbName dbName now2) ++ [(snapshotDbName dbName now2, db)],
    tot, ?_, ?_, ?_⟩
  · rw [fullSyncOneDatabase, hcopy]
    dsimp only
    rw [if_neg hdbne]
  · rw [clusterDrop_filter_name]
    rfl
  · intro n
    rw [dbOf_append_of_not_mem]
    · rw [dbOf, if_pos rfl]
      by_cases hn : n ∈ src2.map Prod.fst
      · obtain ⟨⟨n', c⟩, hmem, hn'⟩ := List.mem_map.mp hn
        dsimp only at hn'
        subst hn'
        rw [hget n' c hmem, dbGet_of_mem_nodup src2 hnames n' c hmem]
      · rw [hfresh n hn, dbGet_eq_nil_of_not_mem src2 n hn]
        rfl
    · intro p hp
      have := List.mem_filter.mp hp
      simp only [decide_eq_true_eq] at this
      exact this.2

/-- Concrete source database for the C4 witness. -/
def c4src : Database := [("a", [⟨.str ['x'], []⟩])]

/-- Witness for C4: running the full sync twice on day 19723 (2024-01-01,
ISO week 1 of 2024) leaves exactly one `sales-week-1-2024` database whose
contents equal the source's. -/
theorem C4_fullsync_idempotent_same_week_witness :
    snapshotDbName "sales" 19723 = "sales-week-1-2024" ∧
    ∃ cl2 tot,
      fullSyncOneDatabase 19723 "sales" c4src
          (fullSyncResultCluster 19723 "sales" c4src []) =
        .ok (cl2, [("a", 1)], tot) ∧
      (cl2.filter (fun p => p.1 = snapshotDbName "sales" 19723)).length = 1 ∧
      (∀ n, dbGet (dbOf cl2 (snapshotDbName "sales" 19723)) n = dbGet c4src n) := by
  have h := C4_fullsync_idempotent_same_week 19723 19723 "sales" c4src c4src []
    rfl rfl (by decide)
    (by
      intro n c hmem
      rw [c4src, List.mem_singleton, Prod.mk.injEq] at hmem
      obtain ⟨rfl, rfl⟩ := hmem
      decide)
    ⟨("a", [⟨.str ['x'], []⟩]), by decide, by decide⟩
  obtain ⟨-, -, cl2, tot, hrun, hcount, hget⟩ := h
  exact ⟨by decide, cl2, tot, hrun, hcount, hget⟩

/-! ## String parsing lemmas for the cleanup name scheme -/

theorem dropPrefixAfter_append : ∀ (p r : Str), dropPrefixAfter p (p ++ r) = some r := by
  intro p
  induction p with
  | nil => intro r; rfl
  | cons c cs ih =>
    intro r
    rw [List.cons_append, dropPrefixAfter, if_pos rfl]
    exact ih r

theorem jsReplaceFirst_prefix : ∀ (p r : Str), jsReplaceFirst p (p ++ r) = r := by
  intro p r
  cases hp : p ++ r with
  | nil =>
    rw [List.append_eq_nil] at hp
    rw [hp.1, hp.2]
    rfl
  | cons c cs =>
    rw [jsReplaceFirst]
    rw [← hp, dropPrefixAfter_append]

theorem splitDash_nodash : ∀ (b : Str), (∀ c ∈ b, c ≠ '-') → splitDash b = [b] := by
  intro b
  induction b with
  | nil => intro _; rfl
  | cons c cs ih =>
    intro h
    rw [splitDash, if_neg (h c (by simp)), ih (fun x hx => h x (by simp [hx]))]

theorem splitDash_append : ∀ (a b : Str), (∀ c ∈ a, c ≠ '-') →
    splitDash (a ++ '-' :: b) = a :: splitDash b := by
  intro a
  induction a with
  | nil =>
    intro b _
    rw [List.nil_append, splitDash, if_pos rfl]
  | cons c cs ih =>
    intro b h
    rw [List.cons_append, splitDash, if_neg (h c (by simp)),
      ih b (fun x hx => h x (by simp [hx]))]

theorem ne_dash_of_isDigitC {c : Char} (h : isDigitC c = true) : c ≠ '-' := by
  intro hh
  subst hh
  simp [isDigitC] at h

/-! ## Evaluation lemmas for the `Number` coercion -/

theorem dropWhile_eq_self_of_all (p : Char → Bool) :
    ∀ l : Str, (∀ c ∈ l, p c = false) → l.dropWhile p = l := by
  intro l h
  cases l with
  | nil => rfl
  | cons c cs =>
    rw [List.dropWhile_cons, h c (by simp)]
    simp

theorem trimWs_eq_self (l : Str) (h : ∀ c ∈ l, isJsWs c = false) : trimWs l = l := by
  rw [trimWs, dropWhile_eq_self_of_all isJsWs l h,
    dropWhile_eq_self_of_all isJsWs l.reverse (fun c hc => h c (List.mem_reverse.mp hc)),
    List.reverse_reverse]

theorem isJsWs_eq_false_of_digit {c : Char} (h : isDigitC c = true) : isJsWs c = false := by
  rw [isDigitC, decide_eq_true_eq] at h
  have h1 : 48 ≤ c.toNat := h.1
  have h2 : c.toNat ≤ 57 := h.2
  rw [isJsWs, decide_eq_false_iff_not]
  intro hmem
  rw [jsWsCodes] at hmem
  simp only [List.mem_cons, List.not_mem_nil, or_false] at hmem
  omega

theorem ne_char_of_digit {c d : Char} (h : isDigitC c = true) (hd : isDigitC d = false) :
    c ≠ d := by
  intro hh
  subst hh
  rw [hd] at h
  cases h

theorem splitOnceAt_none (p : Char → Bool) :
    ∀ l : Str, (∀ c ∈ l, p c = false) → splitOnceAt p l = none := by
  intro l
  induction l with
  | nil => intro _; rfl
  | cons c cs ih =>
    intro h
    simp only [splitOnceAt, h c (by simp), Bool.false_eq_true, if_false,
      ih (fun x hx => h x (by simp [hx]))]

theorem notInfinity_of_digit {c0 : Char} (cs : Str) (h : isDigitC c0 = true) :
    (c0 :: cs = "Infinity".data ∨ c0 :: cs = "+Infinity".data) → False := by
  have hI : "Infinity".data = 'I' :: "nfinity".data := rfl
  have hP : "+Infinity".data = '+' :: "Infinity".data := rfl
  rintro (he | he)
  · rw [hI, List.cons.injEq] at he
    exact ne_char_of_digit h (by decide) he.1
  · rw [hP, List.cons.injEq] at he
    exact ne_char_of_digit h (by decide) he.1

theorem radixMarked_false_of_digits {c0 : Char} (cs : Str)
    (hall : ∀ c ∈ c0 :: cs, isDigitC c = true)
    {a b : Char} (ha : isDigitC a = false) (hb : isDigitC b = false) :
    radixMarked (c0 :: cs) a b = false := by
  cases cs with
  | nil => rfl
  | cons c1 rest =>
    have hc1 := hall c1 (by simp)
    have h1 : c1 ≠ a := ne_char_of_digit hc1 ha
    have h2 : c1 ≠ b := ne_char_of_digit hc1 hb
    rw [radixMarked]
    simp [h1, h2]

theorem decMantissa_digits (l : Str) (h1 : l ≠ []) (h2 : l.all isDigitC = true) :
    decMantissa l = some ((digitsVal l : ℚ)) := by
  have hall : ∀ c ∈ l, isDigitC c = true := fun c hc => List.all_eq_true.mp h2 c hc
  have hsplit : splitOnceAt (fun c => c = '.') l = none :=
    splitOnceAt_none _ l (fun c hc => by
      simp only [decide_eq_false_iff_not]
      exact ne_char_of_digit (hall c hc) (by decide))
  rw [decMantissa, hsplit]
  rw [if_pos ⟨h1, h2⟩]

theorem parseDec_digits (l : Str) (h1 : l ≠ []) (h2 : l.all isDigitC = true) :
    parseDec l = some (.fin ((digitsVal l : ℚ))) := by
  have hall : ∀ c ∈ l, isDigitC c = true := fun c hc => List.all_eq_true.mp h2 c hc
  have hplus : stripPlus l = l := by
    cases l with
    | nil => rfl
    | cons c cs =>
      rw [stripPlus, if_neg (ne_char_of_digit (hall c (by simp)) (by decide))]
  have hsplit : splitOnceAt (fun c => c = 'e' || c = 'E') l = none :=
    splitOnceAt_none _ l (fun c hc => by
      have he1 : c ≠ 'e' := ne_char_of_digit (hall c hc) (by decide)
      have he2 : c ≠ 'E' := ne_char_of_digit (hall c hc) (by decide)
      simp [he1, he2])
  rw [parseDec, hplus, hsplit, decMantissa_digits l h1 h2]
  rfl

theorem jsNumber_digits (l : Str) (h1 : l ≠ []) (h2 : l.all isDigitC = true) :
    jsNumber l = some (.fin ((digitsVal l : ℚ))) := by
  have hall : ∀ c ∈ l, isDigitC c = true := fun c hc => List.all_eq_true.mp h2 c hc
  have htrim : trimWs l = l :=
    trimWs_eq_self l (fun c hc => isJsWs_eq_false_of_digit (hall c hc))
  obtain ⟨c0, cs, rfl⟩ : ∃ c0 cs, l = c0 :: cs := by
    cases l with
    | nil => exact absurd rfl h1
    | cons a b => exact ⟨a, b, rfl⟩
  have hx := radixMarked_false_of_digits cs hall
    (show isDigitC 'x' = false by decide) (show isDigitC 'X' = false by decide)
  have ho := radixMarked_false_of_digits cs hall
    (show isDigitC 'o' = false by decide) (show isDigitC 'O' = false by decide)
  have hbm := radixMarked_false_of_digits cs hall
    (show isDigitC 'b' = false by decide) (show isDigitC 'B' = false by decide)
  rw [jsNumber, htrim, jsNumberCore]
  rw [if_neg h1]
  rw [if_neg (by
    intro hcond
    rw [Bool.or_eq_true, decide_eq_true_eq, decide_eq_true_eq] at hcond
    exact notInfinity_of_digit cs (hall c0 (by simp)) hcond)]
  rw [if_neg (by rw [hx]; exact Bool.false_ne_true)]
  rw [if_neg (by rw [ho]; exact Bool.false_ne_true)]
  rw [if_neg (by rw [hbm]; exact Bool.false_ne_true)]
  exact parseDec_digits _ h1 h2

/-- The week and year `Number` coercions `cleanupSnapshots` performs on a
stripped suffix: JavaScript `Number` of the dash-separated segment at the
index (`none` = `NaN`, also for a missing segment). -/
def jsSuffixNum (s : Str) (idx : Nat) : Option JsNum :=
  match (splitDash s).get? idx with
  | some seg => jsNumber seg
  | none => none

/-- The drop decision, written through the two segment coercions. -/
theorem isOldSnapshot_eq_suffix (cw cy : Int) (pre nm : Str) :
    isOldSnapshot cw cy pre nm =
      (jsLtNum (jsSuffixNum (jsReplaceFirst pre nm) 1) cy ||
        (jsEqNum (jsSuffixNum (jsReplaceFirst pre nm) 1) cy &&
          jsLtNum (jsSuffixNum (jsReplaceFirst pre nm) 0) cw)) := rfl

/-- Membership in the dropped-name list of a cleanup run: some supplied
base prefix-matches the name and its parse of the name looks old. -/
theorem mem_cleanupSnapshotsDropped (now : Int) (kw : Option Nat)
    (names dbs : List String) (name : String) :
    name ∈ cleanupSnapshotsDropped now kw names dbs ↔
      ∃ base ∈ dbs, name ∈ names ∧
        (base ++ "-week-").data.isPrefixOf name.data = true ∧
        isOldSnapshot (getISOWeek (subWeeks now (kw.getD 26)))
          (getISOWeekYear (subWeeks now (kw.getD 26)))
          (base ++ "-week-").data name.data = true := by
  rw [cleanupSnapshotsDropped]
  rw [List.mem_flatMap]
  constructor
  · rintro ⟨b, hb, hmem⟩
    rw [droppedForBase] at hmem
    have h1 := List.mem_filter.mp hmem
    have h2 := List.mem_filter.mp h1.1
    exact ⟨b, hb, h2.1, h2.2, h1.2⟩
  · rintro ⟨b, hb, hn, hp, ho⟩
    refine ⟨b, hb, ?_⟩
    rw [droppedForBase]
    exact List.mem_filter.mpr ⟨List.mem_filter.mpr ⟨hn, hp⟩, ho⟩

/-! ## Claim C6: retention drops a snapshot iff its (year, week) is below the cutoff

As stated over every run the claim is false: a name can prefix-match
*several* supplied base names, and it is dropped as soon as any one
base's parse of it looks old, even when the pair named by its own base is
inside the retention window.  With bases `["a", "a-week-x-2000"]`, the
week-30-of-2023 snapshot `a-week-x-2000-week-30-2023` is dropped through
the base-`"a"` parse (week `Number("x") = NaN`, year 2000 < cutoff year),
although its own-base pair (2023, 30) is not lexicographically below the
cutoff (2023, 6). -/

/-- Counterexample to C6: with cleanup run on 2023-08-09 (cutoff ISO week
6 of 2023) and bases `a` and `a-week-x-2000`, the database named
`a-week-x-2000` ++ `-week-` ++ `30` ++ `-` ++ `2023` — a numeric-suffixed
snapshot of base `a-week-x-2000` whose (year, week) = (2023, 30) is *not*
below the cutoff — is nevertheless dropped. -/
theorem C6_counterexample :
    ("a-week-x-2000" ++ "-week-" ++ "30" ++ "-" ++ "2023") ∈
      cleanupSnapshotsDropped (daysFromCivil 2023 8 9) (some 26)
        ["a-week-x-2000" ++ "-week-" ++ "30" ++ "-" ++ "2023"]
        ["a", "a-week-x-2000"] ∧
    ¬ ((2023 : Int) < getISOWeekYear (subWeeks (daysFromCivil 2023 8 9) 26) ∨
        ((2023 : Int) = getISOWeekYear (subWeeks (daysFromCivil 2023 8 9) 26) ∧
          (30 : Int) < getISOWeek (subWeeks (daysFromCivil 2023 8 9) 26))) := by
  exact ⟨by decide, by decide⟩

/-- **C6 (amended).**  For a database name of the form
`base ++ "-week-" ++ W ++ "-" ++ Y` with numeric week and year segments,
a `cleanupSnapshots` run (retention `keepWeeks`, defaulting to 26) whose
supplied base list contains `base` — and in which no *other* supplied
base prefix-matches the name — drops the database if and only if `(Y, W)`
is lexicographically below the ISO week-year and week of the cutoff
instant `now - 7 * keepWeeks` days.  (When another supplied base also
prefix-matches, its parse of the name can additionally drop it.) -/
theorem C6_amended_cleanup_drops_iff_lex
    (now : Int) (kw : Option Nat) (names dbs : List String)
    (base sw sy : String) (w y : Nat)
    (hbase : base ∈ dbs)
    (hw1 : sw.data ≠ []) (hw2 : sw.data.all isDigitC = true)
    (hw3 : digitsVal sw.data = w)
    (hy1 : sy.data ≠ []) (hy2 : sy.data.all isDigitC = true)
    (hy3 : digitsVal sy.data = y)
    (hmem : (base ++ "-week-" ++ sw ++ "-" ++ sy) ∈ names)
    (huniq : ∀ b ∈ dbs, (b ++ "-week-").data.isPrefixOf
        (base ++ "-week-" ++ sw ++ "-" ++ sy).data = true → b = base) :
    ((base ++ "-week-" ++ sw ++ "-" ++ sy) ∈
        cleanupSnapshotsDropped now kw names dbs ↔
      ((y : Int) < getISOWeekYear (subWeeks now (kw.getD 26)) ∨
        ((y : Int) = getISOWeekYear (subWeeks now (kw.getD 26)) ∧
          (w : Int) < getISOWeek (subWeeks now (kw.getD 26))))) ∧
    cleanupSnapshotsDropped now none names dbs =
      cleanupSnapshotsDropped now (some 26) names dbs := by
  have hdecomp : (base ++ "-week-" ++ sw ++ "-" ++ sy).data =
      (base ++ "-week-").data ++ (sw.data ++ '-' :: sy.data) := by
    simp only [String.data_append]
    simp
  have hpre : (base ++ "-week-").data.isPrefixOf
      (base ++ "-week-" ++ sw ++ "-" ++ sy).data = true := by
    rw [List.isPrefixOf_iff_prefix, hdecomp]
    exact List.prefix_append _ _
  have hold : ∀ cw cy : Int,
      isOldSnapshot cw cy (base ++ "-week-").data
        (base ++ "-week-" ++ sw ++ "-" ++ sy).data =
      (decide ((y : ℚ) < (cy : ℚ)) ||
        (decide ((y : ℚ) = (cy : ℚ)) && decide ((w : ℚ) < (cw : ℚ)))) := by
    intro cw cy
    rw [isOldSnapshot]
    rw [hdecomp, jsReplaceFirst_prefix]
    have hsplit : splitDash (sw.data ++ '-' :: sy.data) = [sw.data, sy.data] := by
      rw [splitDash_append sw.data sy.data
        (fun c hc => ne_dash_of_isDigitC (by
          rw [List.all_eq_true] at hw2
          exact hw2 c hc))]
      rw [splitDash_nodash sy.data
        (fun c hc => ne_dash_of_isDigitC (by
          rw [List.all_eq_true] at hy2
          exact hy2 c hc))]
    rw [hsplit]
    have hnw : jsNumber sw.data = some (.fin ((w : ℚ))) := by
      rw [jsNumber_digits sw.data hw1 hw2, hw3]
    have hny : jsNumber sy.data = some (.fin ((y : ℚ))) := by
      rw [jsNumber_digits sy.data hy1 hy2, hy3]
    dsimp only [List.get?]
    rw [hnw, hny]
    rfl
  constructor
  · rw [mem_cleanupSnapshotsDropped]
    constructor
    · rintro ⟨b, hb, -, hp, ho⟩
      have hbb : b = base := huniq b hb hp
      subst hbb
      rw [hold] at ho
      simp only [Bool.or_eq_true, Bool.and_eq_true, decide_eq_true_eq] at ho
      rcases ho with h | ⟨hh1, hh2⟩
      · left
        exact_mod_cast h
      · right
        constructor
        · exact_mod_cast hh1
        · exact_mod_cast hh2
    · intro hc
      refine ⟨base, hbase, hmem, hpre, ?_⟩
      rw [hold]
      simp only [Bool.or_eq_true, Bool.and_eq_true, decide_eq_true_eq]
      rcases hc with h | ⟨hh1, hh2⟩
      · left
        exact_mod_cast h
      · right
        constructor
        · exact_mod_cast hh1
        · exact_mod_cast hh2
  · rfl

/-- Witness for the amended C6: with `now` = 2023-08-09 (ISO week 32 of
2023) and the default-equivalent retention of 26 weeks, the cutoff falls
in ISO week 6 of 2023, and the week-1 snapshot of 2023 is dropped. -/
theorem C6_amended_cleanup_drops_iff_lex_witness :
    ("sales" ++ "-week-" ++ "1" ++ "-" ++ "2023") ∈
      cleanupSnapshotsDropped (daysFromCivil 2023 8 9) (some 26)
        ["sales" ++ "-week-" ++ "1" ++ "-" ++ "2023"] ["sales"] := by
  have h := C6_amended_cleanup_drops_iff_lex (daysFromCivil 2023 8 9) (some 26)
    ["sales" ++ "-week-" ++ "1" ++ "-" ++ "2023"] ["sales"] "sales" "1" "2023" 1 2023
    (List.mem_singleton.mpr rfl)
    (by decide) (by decide) (by decide) (by decide) (by decide) (by decide)
    (List.mem_singleton.mpr rfl)
    (fun b hb _ => List.mem_singleton.mp hb)
  exact h.1.mpr (by decide)

/-! ## Claim C8: malformed snapshot names during cleanup

The claim reads: a prefix-matched name whose trailing week-year suffix
does not parse as two integers is neither dropped nor crashes the
cleanup.  The "never crashes" half is real (JavaScript `Number` yields
`NaN` and every `NaN` comparison is false), but "never dropped" is not:
the code looks only at the first two dash-separated segments and drops
the name whenever the *year* segment alone coerces below the cutoff
year, even if the week segment is non-numeric or extra segments follow. -/

/-- The claim's notion of "the trailing suffix parses as two integers":
the suffix splits on `"-"` into exactly two decimal digit segments. -/
def suffixTwoInts (s : Str) : Option (Nat × Nat) :=
  match splitDash s with
  | [a, b] =>
    if a ≠ [] ∧ a.all isDigitC = true ∧ b ≠ [] ∧ b.all isDigitC = true then
      some (digitsVal a, digitsVal b)
    else none
  | _ => none

/-- Counterexample to C8: the suffix `"x-2000"` does not parse as two
integers, yet `cleanupSnapshots` (run on 2023-08-09 with the default 26
retention weeks, cutoff ISO year 2023) *drops* `sales-week-x-2000`,
because the year segment alone coerces and `2000 < 2023`. -/
theorem C8_counterexample :
    suffixTwoInts "x-2000".data = none ∧
    "sales-week-x-2000" ∈
      cleanupSnapshotsDropped (daysFromCivil 2023 8 9) (some 26)
        ["sales-week-x-2000"] ["sales"] := by
  exact ⟨by decide, by decide⟩

/-- **C8 (amended).**  Cleanup never crashes on a malformed name (the
drop decision is a total function of the `Number` coercions of the first
two dash-separated suffix segments, `NaN` comparisons being false), and a
name is never dropped when, for every supplied base whose prefix matches
it, the year segment of the corresponding suffix coerces to `NaN` — or
coerces exactly to the cutoff year while the week segment coerces to
`NaN`.  But a name is dropped as soon as one matching base's year segment
coerces below the cutoff year, regardless of the week segment or of extra
trailing segments, so names that do not parse as exactly two integers are
not in general skipped. -/
theorem C8_amended_nan_year_skipped :
    (∀ (now : Int) (kw : Option Nat) (names dbs : List String) (name : String),
      (∀ base ∈ dbs,
        (base ++ "-week-").data.isPrefixOf name.data = true →
        jsSuffixNum (jsReplaceFirst (base ++ "-week-").data name.data) 1 = none ∨
          (jsSuffixNum (jsReplaceFirst (base ++ "-week-").data name.data) 1 =
              some (.fin ((getISOWeekYear (subWeeks now (kw.getD 26)) : ℚ))) ∧
            jsSuffixNum (jsReplaceFirst (base ++ "-week-").data name.data) 0 = none)) →
      ¬ name ∈ cleanupSnapshotsDropped now kw names dbs) ∧
    (∀ (now : Int) (kw : Option Nat) (names dbs : List String)
        (base suffix : String) (q : ℚ),
      base ∈ dbs → (base ++ "-week-" ++ suffix) ∈ names →
      jsSuffixNum suffix.data 1 = some (.fin q) →
      q < ((getISOWeekYear (subWeeks now (kw.getD 26)) : ℚ)) →
      (base ++ "-week-" ++ suffix) ∈ cleanupSnapshotsDropped now kw names dbs) := by
  have hdecompS : ∀ base suffix : String,
      (base ++ "-week-" ++ suffix).data = (base ++ "-week-").data ++ suffix.data := by
    intro base suffix
    simp [String.data_append]
  constructor
  · intro now kw names dbs name hskip hmem
    rw [mem_cleanupSnapshotsDropped] at hmem
    obtain ⟨b, hb, -, hp, ho⟩ := hmem
    rw [isOldSnapshot_eq_suffix] at ho
    rcases hskip b hb hp with hnan | ⟨hcy, hwk⟩
    · rw [hnan] at ho
      rw [show jsLtNum none (getISOWeekYear (subWeeks now (kw.getD 26))) = false from rfl,
        show jsEqNum none (getISOWeekYear (subWeeks now (kw.getD 26))) = false from rfl] at ho
      simp at ho
    · rw [hcy, hwk] at ho
      rw [show jsLtNum none (getISOWeek (subWeeks now (kw.getD 26))) = false from rfl] at ho
      have hlt : jsLtNum
          (some (.fin ((getISOWeekYear (subWeeks now (kw.getD 26)) : ℚ))))
          (getISOWeekYear (subWeeks now (kw.getD 26))) = false := by
        simp [jsLtNum]
      rw [hlt] at ho
      simp at ho
  · intro now kw names dbs base suffix q hb hn hy hlt
    rw [mem_cleanupSnapshotsDropped]
    refine ⟨base, hb, hn, ?_, ?_⟩
    · rw [List.isPrefixOf_iff_prefix, hdecompS]
      exact List.prefix_append _ _
    · rw [isOldSnapshot_eq_suffix, hdecompS, jsReplaceFirst_prefix, hy]
      rw [show jsLtNum (some (.fin q)) (getISOWeekYear (subWeeks now (kw.getD 26))) =
          decide (q < ((getISOWeekYear (subWeeks now (kw.getD 26)) : ℚ))) from rfl]
      simp only [Bool.or_eq_true, decide_eq_true_eq]
      exact Or.inl hlt

/-- Witness for the amended C8: `sales-week-x-y` (year `NaN`) and
`sales-week-x-2023` (year equal to the cutoff year 2023, week `NaN`) are
not dropped, while `sales-week-x-2000` (week `NaN`, year 2000 below the
2023 cutoff) is dropped. -/
theorem C8_amended_nan_year_skipped_witness :
    (¬ ("sales" ++ "-week-" ++ "x-y") ∈
        cleanupSnapshotsDropped (daysFromCivil 2023 8 9) (some 26)
          ["sales" ++ "-week-" ++ "x-y"] ["sales"]) ∧
    (¬ ("sales" ++ "-week-" ++ "x-2023") ∈
        cleanupSnapshotsDropped (daysFromCivil 2023 8 9) (some 26)
          ["sales" ++ "-week-" ++ "x-2023"] ["sales"]) ∧
    ("sales" ++ "-week-" ++ "x-2000") ∈
      cleanupSnapshotsDropped (daysFromCivil 2023 8 9) (some 26)
        ["sales" ++ "-week-" ++ "x-2000"] ["sales"] := by
  refine ⟨?_, ?_, ?_⟩
  · exact C8_amended_nan_year_skipped.1 (daysFromCivil 2023 8 9) (some 26)
      ["sales" ++ "-week-" ++ "x-y"] ["sales"] ("sales" ++ "-week-" ++ "x-y")
      (by
        intro b hb hp
        rw [List.mem_singleton] at hb
        subst hb
        left
        decide)
  · exact C8_amended_nan_year_skipped.1 (daysFromCivil 2023 8 9) (some 26)
      ["sales" ++ "-week-" ++ "x-2023"] ["sales"] ("sales" ++ "-week-" ++ "x-2023")
      (by
        intro b hb hp
        rw [List.mem_singleton] at hb
        subst hb
        right
        exact ⟨by decide, by decide⟩)
  · exact C8_amended_nan_year_skipped.2 (daysFromCivil 2023 8 9) (some 26)
      ["sales" ++ "-week-" ++ "x-2000"] ["sales"] "sales" "x-2000" 2000
      (List.mem_singleton.mpr rfl) (List.mem_singleton.mpr rfl) (by decide) (by decide)

/-! ## Claim C9: the source URI is ambient state, not a parameter -/

/-- A concrete cluster map for the C9 counterexample: the cluster at
`mongodb://src1` holds one changed document; every other URI reaches an
empty cluster. -/
def c9clusters : String → Cluster := fun uri =>
  if uri = "mongodb://src1" then
    [("db", [("c", [⟨.str ['a'], [("updatedAt", .vDate 5)]⟩])])]
  else []

/-- The result of the C9 counterexample run under `MONGODB_URI = src1`. -/
def c9t1 : Database :=
  [("c", [⟨.str ['a'], [("updatedAt", .vDate 5)]⟩]),
   ("_backup_meta", [⟨.str "incremental".toList, [("lastBackupAt", .vDate 100)]⟩])]

/-- The result of the C9 counterexample run under `MONGODB_URI = src2`. -/
def c9t2 : Database :=
  [("_backup_meta", [⟨.str "incremental".toList, [("lastBackupAt", .vDate 100)]⟩])]

/-- Counterexample to C9: two invocations of the incremental backup with
*identical explicit call parameters* but different ambient environments
open different source connections and return different results — the
source cluster URI is read from `process.env.MONGODB_URI` (source lines
634–636), not passed as a parameter. -/
theorem C9_counterexample :
    incrementalOpenedUris ⟨"mongodb://src1"⟩ "mongodb://tgt" ≠
      incrementalOpenedUris ⟨"mongodb://src2"⟩ "mongodb://tgt" ∧
    incrementalBackupOneDatabaseEnv ⟨"mongodb://src1"⟩ c9clusters noFail 100
        "mongodb://tgt" "db" "db" ≠
      incrementalBackupOneDatabaseEnv ⟨"mongodb://src2"⟩ c9clusters noFail 100
        "mongodb://tgt" "db" "db" := by
  constructor
  · intro h
    rw [incrementalOpenedUris, incrementalOpenedUris, List.cons.injEq] at h
    exact absurd h.1 (by decide)
  · have h1 : incrementalBackupOneDatabaseEnv ⟨"mongodb://src1"⟩ c9clusters noFail 100
        "mongodb://tgt" "db" "db" = .ok (c9t1, [("c", 1)]) := by rfl
    have h2 : incrementalBackupOneDatabaseEnv ⟨"mongodb://src2"⟩ c9clusters noFail 100
        "mongodb://tgt" "db" "db" = .ok (c9t2, []) := by rfl
    rw [h1, h2]
    intro h
    rw [Except.ok.injEq, Prod.mk.injEq] at h
    exact absurd h.2 (by decide)

/-- **C9 (amended).**  The behaviour of `incrementalBackupOneDatabase` is
determined by its explicit call parameters *together with* the ambient
`MONGODB_URI` environment variable: the target connection URI and the
database names are explicit parameters, but the source cluster URI is
read from the process environment, so only invocations agreeing on both
the explicit parameters and the ambient variable are interchangeable. -/
theorem C9_amended_determined_by_params_and_env
    (e1 e2 : Env) (clusters : String → Cluster) (fail : String → BId → Bool)
    (now : Int) (targetUri sourceDb targetDb : String)
    (h : e1.MONGODB_URI = e2.MONGODB_URI) :
    incrementalBackupOneDatabaseEnv e1 clusters fail now targetUri sourceDb targetDb =
      incrementalBackupOneDatabaseEnv e2 clusters fail now targetUri sourceDb targetDb ∧
    incrementalOpenedUris e1 targetUri = incrementalOpenedUris e2 targetUri := by
  constructor
  · rw [incrementalBackupOneDatabaseEnv, incrementalBackupOneDatabaseEnv, h]
  · rw [incrementalOpenedUris, incrementalOpenedUris, h]

/-- Witness for the amended C9: two distinct environment records carrying
the same `MONGODB_URI` value produce identical runs. -/
theorem C9_amended_determined_by_params_and_env_witness :
    incrementalBackupOneDatabaseEnv ⟨"mongodb://src1"⟩ c9clusters noFail 100
        "mongodb://tgt" "db" "db" =
      incrementalBackupOneDatabaseEnv ⟨"mongodb://src1"⟩ c9clusters noFail 100
        "mongodb://tgt" "db" "db" ∧
    incrementalOpenedUris ⟨"mongodb://src1"⟩ "mongodb://tgt" =
      incrementalOpenedUris ⟨"mongodb://src1"⟩ "mongodb://tgt" :=
  C9_amended_determined_by_params_and_env ⟨"mongodb://src1"⟩ ⟨"mongodb://src1"⟩
    c9clusters noFail 100 "mongodb://tgt" "db" "db" rfl
